import Mathlib

/-!
# Verification of the SSSP cross-check program

Shallow embedding of `src/main.cpp`: a binary-heap Dijkstra, a 65-bucket
radix heap with a Dijkstra-style relaxation loop on top of it, a result
cross-check, and the edge-list input reader.  Machine `std::uint64_t`
arithmetic is modelled by natural numbers reduced modulo `2 ^ 64` at the
one place the program can overflow (`nd = d + edge.weight`).
-/

/-- The modulus of `std::uint64_t` arithmetic. -/
def M64 : ℕ := 2 ^ 64

/-- `std::numeric_limits<std::uint64_t>::max()`, the `INF` sentinel. -/
def INF : ℕ := M64 - 1

/-- `struct Edge { int to; std::uint64_t weight; }`.  The C++ field `to` is
a reserved token in Lean, so it is named `dst` here. -/
structure Edge where
  dst : ℕ
  weight : ℕ
deriving DecidableEq

/-- `using Graph = std::vector<std::vector<Edge>>`. -/
abbrev Graph := List (List Edge)

/-- Bit length (position of the highest set bit, 1-indexed) of a natural
number below `2 ^ w`, i.e. `64 - __builtin_clzll(n)` when `w = 64` and
`0 < n < 2 ^ 64`.  Structural recursion on the width bound `w`. -/
def bitlen : ℕ → ℕ → ℕ
  | 0, _ => 0
  | w + 1, n => if n = 0 then 0 else bitlen w (n / 2) + 1

/-- `RadixHeap::bucket_index`:
`diff == 0 ? 0 : 64 - __builtin_clzll(diff)`. -/
def bucket_index (diff : ℕ) : ℕ :=
  if diff = 0 then 0 else bitlen 64 diff

/-- The radix heap state: 65 buckets of `(key, value)` pairs, the watermark
`last` and the entry counter `sz`. -/
structure RadixHeap where
  buckets : List (List (ℕ × ℕ))
  last : ℕ
  sz : ℕ
deriving DecidableEq

/-- `RadixHeap() : buckets(65), last(0), sz(0)`. -/
def RadixHeap.init : RadixHeap :=
  { buckets := List.replicate 65 [], last := 0, sz := 0 }

/-- `RadixHeap::push`: append `(key, value)` to bucket
`bucket_index(key ^ last)` and bump `sz`. -/
def RadixHeap.push (h : RadixHeap) (key value : ℕ) : RadixHeap :=
  let idx := bucket_index (key ^^^ h.last)
  { h with
    buckets := h.buckets.set idx (h.buckets.getD idx [] ++ [(key, value)])
    sz := h.sz + 1 }

/-- The scan `i = 1; while (i < buckets.size() && buckets[i].empty()) ++i;`
over `r` candidate indices starting at `i`; `none` models reaching the end
of the bucket array (the `throw std::logic_error` case). -/
def RadixHeap.scan (bs : List (List (ℕ × ℕ))) : ℕ → ℕ → Option ℕ
  | _, 0 => none
  | i, r + 1 => if bs.getD i [] = [] then RadixHeap.scan bs (i + 1) r else some i

/-- `RadixHeap::relocate`: find the lowest non-empty bucket `i ≥ 1`, lower
`last` to the minimum key stored there, re-bucket every entry of bucket `i`
under the new `last`, then clear bucket `i`.  `none` models the thrown
`std::logic_error("RadixHeap is empty")`. -/
def RadixHeap.relocate (h : RadixHeap) : Option RadixHeap :=
  match RadixHeap.scan h.buckets 1 64 with
  | none => none
  | some i =>
    let b := h.buckets.getD i []
    let new_last := b.foldl (fun m p => if p.1 < m then p.1 else m) (b.headD (0, 0)).1
    let bs := b.foldl
      (fun bs item =>
        bs.set (bucket_index (item.1 ^^^ new_last))
          (bs.getD (bucket_index (item.1 ^^^ new_last)) [] ++ [item]))
      h.buckets
    some { buckets := bs.set i [], last := new_last, sz := h.sz }

/-- `RadixHeap::pop`: relocate if bucket 0 is empty, then remove and return
the back of bucket 0.  `none` models the exception propagated out of
`relocate` (and the undefined behaviour of `back()` on an empty bucket,
which the invariants below prove unreachable). -/
def RadixHeap.pop (h : RadixHeap) : Option ((ℕ × ℕ) × RadixHeap) :=
  let step := fun (h1 : RadixHeap) =>
    match (h1.buckets.getD 0 []).getLast? with
    | none => none
    | some res =>
      some (res,
        { h1 with
          buckets := h1.buckets.set 0 (h1.buckets.getD 0 []).dropLast
          sz := h1.sz - 1 })
  if h.buckets.getD 0 [] = [] then
    match h.relocate with
    | none => none
    | some h1 => step h1
  else step h

/-- `bool empty() const { return sz == 0; }`. -/
def RadixHeap.isEmpty (h : RadixHeap) : Bool := h.sz == 0

/-- Remove the first occurrence of a pair from the list of stored pairs. -/
def removeOne : List (ℕ × ℕ) → (ℕ × ℕ) → List (ℕ × ℕ)
  | [], _ => []
  | x :: xs, m => if x = m then xs else x :: removeOne xs m

/-- Extraction from `std::priority_queue<P, std::vector<P>, std::greater<P>>`:
remove the lexicographically smallest `(distance, node)` pair. -/
def binPopMin : List (ℕ × ℕ) → Option ((ℕ × ℕ) × List (ℕ × ℕ))
  | [] => none
  | x :: xs =>
    let m := xs.foldl (fun a b => if b.1 < a.1 ∨ (b.1 = a.1 ∧ b.2 < a.2) then b else a) x
    some (m, removeOne (x :: xs) m)

/-- The priority-queue capability shared by the two algorithms:
`empty`, `pop` and `push`. -/
structure PQ (σ : Type) where
  isEmpty : σ → Bool
  pop : σ → Option ((ℕ × ℕ) × σ)
  push : ℕ → ℕ → σ → σ

/-- The binary-heap queue of `dijkstra`, viewed as the list of its stored
pairs. -/
def binPQ : PQ (List (ℕ × ℕ)) where
  isEmpty q := q.isEmpty
  pop := binPopMin
  push k v q := (k, v) :: q

/-- The radix-heap queue of `breaking_sorting_barrier_sssp`. -/
def radixPQ : PQ RadixHeap where
  isEmpty := RadixHeap.isEmpty
  pop := RadixHeap.pop
  push k v h := h.push k v

/-- One relaxation `nd = d + edge.weight; if (nd < dist[edge.dst]) { ... }`
of the shared loop body, on the pair (queue, dist). -/
def relaxStep {σ : Type} (Q : PQ σ) (d : ℕ) (p : σ × List ℕ) (e : Edge) :
    σ × List ℕ :=
  let nd := (d + e.weight) % M64
  if nd < p.2.getD e.dst 0 then (Q.push nd e.dst p.1, p.2.set e.dst nd) else p

/-- The `while (!pq.empty())` relaxation loop shared verbatim by `dijkstra`
and `breaking_sorting_barrier_sssp`, with a fuel bound on the number of
iterations; `none` means the fuel ran out (or a queue exception). -/
def ssspLoop {σ : Type} (Q : PQ σ) (g : Graph) :
    ℕ → σ → List ℕ → Option (List ℕ × σ)
  | 0, q, dist => if Q.isEmpty q then some (dist, q) else none
  | fuel + 1, q, dist =>
    if Q.isEmpty q then some (dist, q)
    else
      match Q.pop q with
      | none => none
      | some ((d, u), q') =>
        if d = dist.getD u 0 then
          let p := (g.getD u []).foldl (relaxStep Q d) (q', dist)
          ssspLoop Q g fuel p.1 p.2
        else ssspLoop Q g fuel q' dist

/-- `dist(graph.size(), INF); dist[source] = 0;`. -/
def initDist (g : Graph) (source : ℕ) : List ℕ :=
  (List.replicate g.length INF).set source 0

/-- `dijkstra(graph, source)` with an iteration fuel. -/
def dijkstra (g : Graph) (source fuel : ℕ) : Option (List ℕ) :=
  (ssspLoop binPQ g fuel (binPQ.push 0 source []) (initDist g source)).map Prod.fst

/-- `breaking_sorting_barrier_sssp(graph, source)` with an iteration fuel. -/
def breaking_sorting_barrier_sssp (g : Graph) (source fuel : ℕ) : Option (List ℕ) :=
  (ssspLoop radixPQ g fuel (radixPQ.push 0 source RadixHeap.init)
    (initDist g source)).map Prod.fst

/-- The failure modes of `verify_results`. -/
inductive VerifyError where
  | size_mismatch : VerifyError
  | mismatch (i a_i b_i : ℕ) : VerifyError
deriving DecidableEq

/-- The index loop of `verify_results`, throwing at the first index where
the vectors disagree. -/
def verifyLoop : ℕ → List ℕ → List ℕ → Except VerifyError Unit
  | _, [], _ => Except.ok ()
  | _, _ :: _, [] => Except.ok ()
  | i, a :: as, b :: bs =>
    if a ≠ b then Except.error (VerifyError.mismatch i a b)
    else verifyLoop (i + 1) as bs

/-- `verify_results`: throw on a size mismatch, else throw at the first
differing index, else return normally. -/
def verify_results (a b : List ℕ) : Except VerifyError Unit :=
  if a.length ≠ b.length then Except.error VerifyError.size_mismatch
  else verifyLoop 0 a b

/-! ## Bit-level facts about `bitlen` and `bucket_index` -/

theorem bitlen_zero (w : ℕ) : bitlen w 0 = 0 := by
  cases w <;> simp [bitlen]

theorem bitlen_le (w : ℕ) : ∀ n, bitlen w n ≤ w := by
  induction w with
  | zero => intro n; simp [bitlen]
  | succ w ih =>
    intro n
    by_cases h : n = 0
    · simp [bitlen, h]
    · simpa [bitlen, h] using ih (n / 2)

theorem bitlen_eq (w j : ℕ) : ∀ n, 2 ^ j ≤ n → n < 2 ^ (j + 1) → j + 1 ≤ w →
    bitlen w n = j + 1 := by
  induction w generalizing j with
  | zero => intro n _ _ hw; omega
  | succ w ih =>
    intro n hlo hhi hw
    have hn : n ≠ 0 := by
      have : 0 < 2 ^ j := Nat.pos_pow_of_pos _ (by norm_num)
      omega
    rw [bitlen, if_neg hn]
    cases j with
    | zero =>
      have : n = 1 := by omega
      subst this
      simp [bitlen_zero]
    | succ j' =>
      have hlo' : 2 ^ j' ≤ n / 2 := by
        rw [Nat.le_div_iff_mul_le (by norm_num)]
        calc 2 ^ j' * 2 = 2 ^ (j' + 1) := by ring
        _ ≤ n := hlo
      have hhi' : n / 2 < 2 ^ (j' + 1) := by
        rw [Nat.div_lt_iff_lt_mul (by norm_num)]
        calc n < 2 ^ (j' + 1 + 1) := hhi
        _ = 2 ^ (j' + 1) * 2 := by ring
      rw [ih j' (n / 2) hlo' hhi' (by omega)]

theorem lt_two_pow_of_high_false {a k : ℕ} (h : ∀ j, k ≤ j → a.testBit j = false) :
    a < 2 ^ k := by
  have h0 : a / 2 ^ k = 0 := by
    apply Nat.eq_of_testBit_eq
    intro i
    rw [← Nat.shiftRight_eq_div_pow, Nat.testBit_shiftRight, Nat.zero_testBit]
    exact h _ (Nat.le_add_right _ _)
  exact (Nat.div_eq_zero_iff (Nat.pos_pow_of_pos _ (by norm_num))).mp h0

theorem testBit_true_of_mem_co {a k : ℕ} (hlo : 2 ^ k ≤ a) (hhi : a < 2 ^ (k + 1)) :
    a.testBit k = true := by
  have hpos : 0 < 2 ^ k := Nat.pos_pow_of_pos _ (by norm_num)
  have hdiv : a / 2 ^ k = 1 := by
    have h1 : 1 ≤ a / 2 ^ k := (Nat.one_le_div_iff hpos).mpr hlo
    have h2 : a / 2 ^ k < 2 := by
      rw [Nat.div_lt_iff_lt_mul hpos]
      calc a < 2 ^ (k + 1) := hhi
      _ = 2 * 2 ^ k := by ring
    omega
  rw [Nat.testBit_to_div_mod, hdiv]
  rfl

theorem testBit_false_of_ge {a k j : ℕ} (hhi : a < 2 ^ k) (hj : k ≤ j) :
    a.testBit j = false :=
  Nat.testBit_eq_false_of_lt (lt_of_lt_of_le hhi (Nat.pow_le_pow_right (by norm_num) hj))

/-- Two numbers with the same highest set bit position XOR to something
strictly below that bit. -/
theorem xor_high_cancel {a b k : ℕ} (ha1 : 2 ^ k ≤ a) (ha2 : a < 2 ^ (k + 1))
    (hb1 : 2 ^ k ≤ b) (hb2 : b < 2 ^ (k + 1)) : a ^^^ b < 2 ^ k := by
  apply lt_two_pow_of_high_false
  intro j hj
  rw [Nat.testBit_xor]
  rcases Nat.eq_or_lt_of_le hj with h | h
  · rw [← h, testBit_true_of_mem_co ha1 ha2, testBit_true_of_mem_co hb1 hb2]
    rfl
  · rw [testBit_false_of_ge ha2 h, testBit_false_of_ge hb2 h]
    rfl

/-- XOR with a number below the highest set bit keeps the highest set bit. -/
theorem xor_high_keep {a b k : ℕ} (ha1 : 2 ^ k ≤ a) (ha2 : a < 2 ^ (k + 1))
    (hb : b < 2 ^ k) : 2 ^ k ≤ a ^^^ b ∧ a ^^^ b < 2 ^ (k + 1) := by
  constructor
  · by_contra hlt
    push_neg at hlt
    have := Nat.testBit_eq_false_of_lt hlt
    rw [Nat.testBit_xor, testBit_true_of_mem_co ha1 ha2,
      Nat.testBit_eq_false_of_lt hb] at this
    simp at this
  · exact Nat.xor_lt_two_pow ha2 (lt_trans hb (Nat.pow_lt_pow_right (by norm_num) (by omega)))

theorem size_eq_of_mem_co {z k : ℕ} (h1 : 2 ^ k ≤ z) (h2 : z < 2 ^ (k + 1)) :
    z.size = k + 1 :=
  le_antisymm (Nat.size_le.mpr h2) (Nat.lt_size.mpr h1)

/-- On 64-bit values `bucket_index` is the bit length. -/
theorem bucket_index_eq_size {d : ℕ} (hd : d < M64) : bucket_index d = d.size := by
  by_cases h0 : d = 0
  · subst h0
    simp [bucket_index, Nat.size_zero]
  · have hpos : 0 < d := Nat.pos_of_ne_zero h0
    have hs1 : 1 ≤ d.size := Nat.size_pos.mpr hpos
    have hlo : 2 ^ (d.size - 1) ≤ d := Nat.lt_size.mp (by omega)
    have hhi : d < 2 ^ (d.size - 1 + 1) := by
      have := Nat.lt_size_self d
      have he : d.size - 1 + 1 = d.size := by omega
      rw [he]
      exact this
    have hle : d.size ≤ 64 := Nat.size_le.mpr (by simpa [M64] using hd)
    rw [bucket_index, if_neg h0, bitlen_eq 64 (d.size - 1) d hlo hhi (by omega)]
    omega

theorem bucket_index_le_64 {d : ℕ} (hd : d < M64) : bucket_index d ≤ 64 := by
  rw [bucket_index_eq_size hd]
  exact Nat.size_le.mpr (by simpa [M64] using hd)

theorem bucket_index_eq_zero_iff {d : ℕ} (hd : d < M64) :
    bucket_index d = 0 ↔ d = 0 := by
  rw [bucket_index_eq_size hd]
  exact Nat.size_eq_zero

theorem bucket_index_xor_self (k : ℕ) : bucket_index (k ^^^ k) = 0 := by
  rw [Nat.xor_self]
  rfl

/-- Two keys in the same (positive) bucket relative to `last` land strictly
lower relative to each other. -/
theorem bucket_index_xor_cancel {x y i : ℕ} (hx : x < M64) (hy : y < M64)
    (hxi : bucket_index x = i) (hyi : bucket_index y = i) (hi : 1 ≤ i) :
    bucket_index (x ^^^ y) < i := by
  have hx2 : x.size = i := by rw [← bucket_index_eq_size hx, hxi]
  have hy2 : y.size = i := by rw [← bucket_index_eq_size hy, hyi]
  have hxlo : 2 ^ (i - 1) ≤ x := Nat.lt_size.mp (by omega)
  have hxhi : x < 2 ^ (i - 1 + 1) := by
    have := Nat.lt_size_self x
    rw [hx2] at this
    have he : i - 1 + 1 = i := by omega
    rw [he]
    exact this
  have hylo : 2 ^ (i - 1) ≤ y := Nat.lt_size.mp (by omega)
  have hyhi : y < 2 ^ (i - 1 + 1) := by
    have := Nat.lt_size_self y
    rw [hy2] at this
    have he : i - 1 + 1 = i := by omega
    rw [he]
    exact this
  have hcancel : x ^^^ y < 2 ^ (i - 1) := xor_high_cancel hxlo hxhi hylo hyhi
  have hxy : x ^^^ y < M64 := Nat.xor_lt_two_pow hx hy
  rw [bucket_index_eq_size hxy]
  have : (x ^^^ y).size ≤ i - 1 := Nat.size_le.mpr hcancel
  omega

/-- XOR with a key from a strictly lower bucket does not move an entry. -/
theorem bucket_index_xor_keep {x y i j : ℕ} (hx : x < M64) (hy : y < M64)
    (hxj : bucket_index x = j) (hyi : bucket_index y = i) (hij : i < j) :
    bucket_index (x ^^^ y) = j := by
  have hj : 1 ≤ j := by omega
  have hx2 : x.size = j := by rw [← bucket_index_eq_size hx, hxj]
  have hy2 : y.size = i := by rw [← bucket_index_eq_size hy, hyi]
  have hxlo : 2 ^ (j - 1) ≤ x := Nat.lt_size.mp (by omega)
  have hxhi : x < 2 ^ (j - 1 + 1) := by
    have := Nat.lt_size_self x
    rw [hx2] at this
    have he : j - 1 + 1 = j := by omega
    rw [he]
    exact this
  have hylt : y < 2 ^ (j - 1) := by
    have h1 : y < 2 ^ i := by
      have := Nat.lt_size_self y
      rwa [hy2] at this
    exact lt_of_lt_of_le h1 (Nat.pow_le_pow_right (by norm_num) (by omega))
  obtain ⟨hk1, hk2⟩ := xor_high_keep hxlo hxhi hylt
  have hxy : x ^^^ y < M64 := Nat.xor_lt_two_pow hx hy
  rw [bucket_index_eq_size hxy, size_eq_of_mem_co hk1 hk2]
  omega

/-! ## List bookkeeping helpers -/

theorem getD_set_self {α : Type} (l : List α) (i : ℕ) (x d : α) (h : i < l.length) :
    (l.set i x).getD i d = x := by
  rw [List.getD_eq_getElem?_getD, List.getElem?_set_self (by simpa using h)]
  rfl

theorem getD_set_ne {α : Type} (l : List α) {i j : ℕ} (x d : α) (h : i ≠ j) :
    (l.set i x).getD j d = l.getD j d := by
  rw [List.getD_eq_getElem?_getD, List.getElem?_set_ne h, ← List.getD_eq_getElem?_getD]

theorem flatten_set_append_perm {α : Type} :
    ∀ (bs : List (List α)) (i : ℕ) (x : α), i < bs.length →
      (bs.set i (bs.getD i [] ++ [x])).flatten.Perm (x :: bs.flatten) := by
  intro bs
  induction bs with
  | nil => intro i x h; simp at h
  | cons b rest ih =>
    intro i x h
    cases i with
    | zero =>
      simp only [List.set_cons_zero, List.getD_cons_zero, List.flatten_cons]
      have h1 : ((b ++ [x]) ++ rest.flatten).Perm (b ++ ([x] ++ rest.flatten)) := by
        rw [List.append_assoc]
      have h2 : (b ++ ([x] ++ rest.flatten)).Perm (([x] ++ rest.flatten) ++ b) :=
        List.perm_append_comm
      have h3 : (([x] ++ rest.flatten) ++ b).Perm (x :: (b ++ rest.flatten)) := by
        simp only [List.cons_append, List.nil_append]
        exact (List.perm_append_comm).cons x
      exact (h1.trans h2).trans h3
    | succ i' =>
      simp only [List.set_cons_succ, List.getD_cons_succ, List.flatten_cons]
      have h' : i' < rest.length := by simpa using h
      have h1 : (b ++ (rest.set i' (rest.getD i' [] ++ [x])).flatten).Perm
          (b ++ (x :: rest.flatten)) := (ih i' x h').append_left b
      exact h1.trans List.perm_middle

theorem flatten_set_nil_perm {α : Type} :
    ∀ (bs : List (List α)) (i : ℕ), i < bs.length →
      bs.flatten.Perm (bs.getD i [] ++ (bs.set i []).flatten) := by
  intro bs
  induction bs with
  | nil => intro i h; simp at h
  | cons b rest ih =>
    intro i h
    cases i with
    | zero =>
      simp [List.set_cons_zero, List.getD_cons_zero, List.flatten_cons]
    | succ i' =>
      simp only [List.set_cons_succ, List.getD_cons_succ, List.flatten_cons]
      have h' : i' < rest.length := by simpa using h
      have h1 : (b ++ rest.flatten).Perm
          (b ++ (rest.getD i' [] ++ (rest.set i' []).flatten)) :=
        (ih i' h').append_left b
      have h2 : (b ++ (rest.getD i' [] ++ (rest.set i' []).flatten)).Perm
          (rest.getD i' [] ++ (b ++ (rest.set i' []).flatten)) := by
        rw [← List.append_assoc, ← List.append_assoc]
        exact List.perm_append_comm.append_right _
      exact h1.trans h2

theorem sum_set_getD : ∀ (l : List ℕ) (i : ℕ) (x : ℕ), i < l.length →
    (l.set i x).sum + l.getD i 0 = l.sum + x := by
  intro l
  induction l with
  | nil => intro i x h; simp at h
  | cons a rest ih =>
    intro i x h
    cases i with
    | zero => simp [List.getD_cons_zero]; omega
    | succ i' =>
      have h' : i' < rest.length := by simpa using h
      have := ih i' x h'
      simp only [List.set_cons_succ, List.getD_cons_succ, List.sum_cons]
      omega

/-! ## Radix heap invariants -/

/-- The bucket invariant: every stored entry with key `k` sits in bucket
`bucket_index (k XOR last)`. -/
def BucketInv (h : RadixHeap) : Prop :=
  ∀ i, i < h.buckets.length → ∀ e ∈ h.buckets.getD i [],
    bucket_index (e.1 ^^^ h.last) = i

/-- Structural well-formedness of a radix heap: 65 buckets, an accurate
entry counter, 64-bit keys and watermark, and the bucket invariant. -/
def RadixWF (h : RadixHeap) : Prop :=
  h.buckets.length = 65 ∧
  h.sz = h.buckets.flatten.length ∧
  h.last < M64 ∧
  (∀ e ∈ h.buckets.flatten, e.1 < M64) ∧
  BucketInv h

theorem mem_flatten_iff_getD {α : Type} (bs : List (List α)) (e : α) :
    e ∈ bs.flatten ↔ ∃ i, i < bs.length ∧ e ∈ bs.getD i [] := by
  rw [List.mem_flatten]
  constructor
  · rintro ⟨l, hl, hel⟩
    obtain ⟨i, hi, hget⟩ := List.mem_iff_getElem.mp hl
    exact ⟨i, hi, by rwa [List.getD_eq_getElem _ _ hi, hget]⟩
  · rintro ⟨i, hi, hel⟩
    exact ⟨bs[i], List.getElem_mem hi, by rwa [List.getD_eq_getElem _ _ hi] at hel⟩

theorem radixWF_init : RadixWF RadixHeap.init := by
  refine ⟨by simp [RadixHeap.init], by simp [RadixHeap.init], by simp [RadixHeap.init, M64], ?_, ?_⟩
  · intro e he
    rw [mem_flatten_iff_getD] at he
    obtain ⟨i, hi, hei⟩ := he
    simp only [RadixHeap.init] at hi hei
    rw [List.getD_eq_getElem _ _ hi, List.getElem_replicate] at hei
    simp at hei
  · intro i hi e he
    simp only [RadixHeap.init] at he hi
    rw [List.getD_eq_getElem _ _ hi, List.getElem_replicate] at he
    simp at he

theorem radixWF_push {h : RadixHeap} {k v : ℕ} (hw : RadixWF h) (hk : k < M64) :
    RadixWF (h.push k v) ∧
    (h.push k v).buckets.flatten.Perm ((k, v) :: h.buckets.flatten) ∧
    (h.push k v).last = h.last ∧ (h.push k v).sz = h.sz + 1 := by
  obtain ⟨hlen, hsz, hlast, hkeys, hinv⟩ := hw
  have hxor : k ^^^ h.last < M64 := Nat.xor_lt_two_pow hk hlast
  have hidx : bucket_index (k ^^^ h.last) < h.buckets.length := by
    rw [hlen]
    have := bucket_index_le_64 hxor
    omega
  have hperm : (h.push k v).buckets.flatten.Perm ((k, v) :: h.buckets.flatten) := by
    simpa [RadixHeap.push] using flatten_set_append_perm h.buckets _ (k, v) hidx
  refine ⟨⟨?_, ?_, ?_, ?_, ?_⟩, hperm, rfl, rfl⟩
  · simp [RadixHeap.push, hlen]
  · show (h.push k v).sz = (h.push k v).buckets.flatten.length
    rw [hperm.length_eq]
    simp [RadixHeap.push, hsz]
  · exact hlast
  · intro e he
    have hmem := hperm.mem_iff.mp he
    rcases List.mem_cons.mp hmem with h1 | h1
    · subst h1
      exact hk
    · exact hkeys e h1
  · intro i hi e he
    simp only [RadixHeap.push] at he hi ⊢
    rw [List.length_set] at hi
    by_cases hcase : bucket_index (k ^^^ h.last) = i
    · rw [← hcase, getD_set_self _ _ _ _ hidx] at he
      rcases List.mem_append.mp he with h1 | h1
      · exact hinv _ (by rwa [hcase] at hidx) e (by rwa [hcase] at h1)
      · simp only [List.mem_singleton] at h1
        subst h1
        exact hcase
    · rw [getD_set_ne _ _ _ hcase] at he
      exact hinv i hi e he

theorem scan_none {bs : List (List (ℕ × ℕ))} :
    ∀ r start, RadixHeap.scan bs start r = none →
      ∀ j, start ≤ j → j < start + r → bs.getD j [] = [] := by
  intro r
  induction r with
  | zero => intro start _ j h1 h2; omega
  | succ r ih =>
    intro start hscan j h1 h2
    rw [RadixHeap.scan] at hscan
    by_cases hs : bs.getD start [] = []
    · rw [if_pos hs] at hscan
      rcases Nat.eq_or_lt_of_le h1 with he | hlt
      · rwa [← he]
      · exact ih (start + 1) hscan j hlt (by omega)
    · rw [if_neg hs] at hscan
      exact absurd hscan (by simp)

theorem scan_some {bs : List (List (ℕ × ℕ))} :
    ∀ r start i, RadixHeap.scan bs start r = some i →
      start ≤ i ∧ i < start + r ∧ bs.getD i [] ≠ [] ∧
        ∀ j, start ≤ j → j < i → bs.getD j [] = [] := by
  intro r
  induction r with
  | zero => intro start i h; exact absurd h (by simp [RadixHeap.scan])
  | succ r ih =>
    intro start i hscan
    rw [RadixHeap.scan] at hscan
    by_cases hs : bs.getD start [] = []
    · rw [if_pos hs] at hscan
      obtain ⟨h1, h2, h3, h4⟩ := ih (start + 1) i hscan
      refine ⟨by omega, by omega, h3, ?_⟩
      intro j hj1 hj2
      rcases Nat.eq_or_lt_of_le hj1 with he | hlt
      · rwa [← he]
      · exact h4 j hlt hj2
    · rw [if_neg hs] at hscan
      simp only [Option.some.injEq] at hscan
      subst hscan
      exact ⟨le_refl _, by omega, hs, fun j hj1 hj2 => by omega⟩

theorem foldl_min_le (l : List (ℕ × ℕ)) (a : ℕ) :
    (l.foldl (fun m p => if p.1 < m then p.1 else m) a) ≤ a ∧
      ∀ p ∈ l, (l.foldl (fun m p => if p.1 < m then p.1 else m) a) ≤ p.1 := by
  induction l generalizing a with
  | nil => simp
  | cons x xs ih =>
    simp only [List.foldl_cons, List.mem_cons]
    by_cases hx : x.1 < a
    · rw [if_pos hx]
      obtain ⟨h1, h2⟩ := ih x.1
      exact ⟨by omega, fun p hp => by
        rcases hp with hp | hp
        · subst hp; exact h1
        · exact h2 p hp⟩
    · rw [if_neg hx]
      obtain ⟨h1, h2⟩ := ih a
      exact ⟨h1, fun p hp => by
        rcases hp with hp | hp
        · subst hp; omega
        · exact h2 p hp⟩

theorem foldl_min_mem (l : List (ℕ × ℕ)) (a : ℕ) :
    (l.foldl (fun m p => if p.1 < m then p.1 else m) a) = a ∨
      (l.foldl (fun m p => if p.1 < m then p.1 else m) a) ∈ l.map Prod.fst := by
  induction l generalizing a with
  | nil => simp
  | cons x xs ih =>
    simp only [List.foldl_cons, List.map_cons, List.mem_cons]
    by_cases hx : x.1 < a
    · rw [if_pos hx]
      rcases ih x.1 with h | h
      · exact Or.inr (Or.inl h)
      · exact Or.inr (Or.inr h)
    · rw [if_neg hx]
      rcases ih a with h | h
      · exact Or.inl h
      · exact Or.inr (Or.inr h)

theorem fold_append_length {α : Type} (f : α → ℕ) :
    ∀ (items : List α) (bs : List (List α)),
      (items.foldl (fun bs it => bs.set (f it) (bs.getD (f it) [] ++ [it])) bs).length =
        bs.length := by
  intro items
  induction items with
  | nil => intro bs; rfl
  | cons a rest ih =>
    intro bs
    rw [List.foldl_cons, ih, List.length_set]

theorem fold_append_perm {α : Type} (f : α → ℕ) :
    ∀ (items : List α) (bs : List (List α)), (∀ it ∈ items, f it < bs.length) →
      ((items.foldl (fun bs it => bs.set (f it) (bs.getD (f it) [] ++ [it])) bs).flatten).Perm
        (bs.flatten ++ items) := by
  intro items
  induction items with
  | nil => intro bs _; simp
  | cons a rest ih =>
    intro bs hf
    rw [List.foldl_cons]
    have ha : f a < bs.length := hf a (List.mem_cons_self a rest)
    have h1 := ih (bs.set (f a) (bs.getD (f a) [] ++ [a]))
      (by intro it hit; rw [List.length_set]; exact hf it (List.mem_cons_of_mem a hit))
    have h2 : (bs.set (f a) (bs.getD (f a) [] ++ [a])).flatten.Perm (a :: bs.flatten) :=
      flatten_set_append_perm bs (f a) a ha
    refine h1.trans ?_
    have h3 : ((bs.set (f a) (bs.getD (f a) [] ++ [a])).flatten ++ rest).Perm
        ((a :: bs.flatten) ++ rest) := h2.append_right rest
    refine h3.trans ?_
    simp only [List.cons_append]
    exact List.perm_middle.symm

theorem fold_append_getD_untouched {α : Type} (f : α → ℕ) :
    ∀ (items : List α) (bs : List (List α)) (j : ℕ), (∀ it ∈ items, f it ≠ j) →
      (items.foldl (fun bs it => bs.set (f it) (bs.getD (f it) [] ++ [it])) bs).getD j [] =
        bs.getD j [] := by
  intro items
  induction items with
  | nil => intro bs j _; rfl
  | cons a rest ih =>
    intro bs j hf
    rw [List.foldl_cons, ih _ _ (fun it hit => hf it (List.mem_cons_of_mem a hit)),
      getD_set_ne _ _ _ (hf a (List.mem_cons_self a rest))]

theorem fold_append_mem_getD {α : Type} (f : α → ℕ) :
    ∀ (items : List α) (bs : List (List α)) (j : ℕ) (e : α),
      e ∈ (items.foldl (fun bs it => bs.set (f it) (bs.getD (f it) [] ++ [it])) bs).getD j [] →
        e ∈ bs.getD j [] ∨ (e ∈ items ∧ f e = j) := by
  intro items
  induction items with
  | nil => intro bs j e he; exact Or.inl he
  | cons a rest ih =>
    intro bs j e he
    rw [List.foldl_cons] at he
    rcases ih _ _ e he with h1 | h1
    · by_cases hfa : f a = j
      · rw [← hfa] at h1
        by_cases hlen : f a < bs.length
        · rw [getD_set_self _ _ _ _ hlen] at h1
          rcases List.mem_append.mp h1 with h2 | h2
          · exact Or.inl (by rwa [hfa] at h2)
          · simp only [List.mem_singleton] at h2
            rw [h2]
            exact Or.inr ⟨List.mem_cons_self a rest, hfa⟩
        · rw [List.set_eq_of_length_le (by omega)] at h1
          exact Or.inl (by rwa [hfa] at h1)
      · rw [getD_set_ne _ _ _ hfa] at h1
        exact Or.inl h1
    · exact Or.inr ⟨List.mem_cons_of_mem a h1.1, h1.2⟩

theorem fold_append_getD_nonempty {α : Type} (f : α → ℕ) :
    ∀ (items : List α) (bs : List (List α)) (j : ℕ), (∀ it ∈ items, f it < bs.length) →
      (bs.getD j [] ≠ [] ∨ ∃ it ∈ items, f it = j) →
        (items.foldl (fun bs it => bs.set (f it) (bs.getD (f it) [] ++ [it])) bs).getD j []
          ≠ [] := by
  intro items
  induction items with
  | nil =>
    intro bs j _ h
    rcases h with h | h
    · exact h
    · obtain ⟨it, hit, _⟩ := h
      simp at hit
  | cons a rest ih =>
    intro bs j hrange h
    rw [List.foldl_cons]
    have hrange' : ∀ it ∈ rest,
        f it < (bs.set (f a) (bs.getD (f a) [] ++ [a])).length := by
      intro it hit
      rw [List.length_set]
      exact hrange it (List.mem_cons_of_mem a hit)
    apply ih _ _ hrange'
    by_cases hfa : f a = j
    · left
      rw [← hfa, getD_set_self _ _ _ _ (hrange a (List.mem_cons_self a rest))]
      simp
    · rcases h with h | h
      · left
        rwa [getD_set_ne _ _ _ hfa]
      · rcases h with ⟨it, hit, hfit⟩
        rcases List.mem_cons.mp hit with h2 | h2
        · rw [h2] at hfit
          exact (hfa hfit).elim
        · right
          exact ⟨it, h2, hfit⟩

theorem xor_mix (a b c : ℕ) : (a ^^^ c) ^^^ (b ^^^ c) = a ^^^ b := by
  rw [Nat.xor_assoc, Nat.xor_comm c (b ^^^ c), Nat.xor_assoc, Nat.xor_self,
    Nat.xor_zero]

theorem radix_relocate_spec {h : RadixHeap} (hw : RadixWF h)
    (h0 : h.buckets.getD 0 [] = []) (hne : h.buckets.flatten ≠ []) :
    ∃ i h', RadixHeap.scan h.buckets 1 64 = some i ∧ h.relocate = some h' ∧
      RadixWF h' ∧
      h'.buckets.flatten.Perm h.buckets.flatten ∧
      h'.sz = h.sz ∧
      1 ≤ i ∧ i < 65 ∧ h.buckets.getD i [] ≠ [] ∧
      (∀ j, 1 ≤ j → j < i → h.buckets.getD j [] = []) ∧
      h'.last ∈ (h.buckets.getD i []).map Prod.fst ∧
      (∀ p ∈ h.buckets.getD i [], h'.last ≤ p.1) ∧
      (∀ p ∈ h.buckets.getD i [], bucket_index (p.1 ^^^ h'.last) < i) ∧
      h'.buckets.getD 0 [] ≠ [] := by
  obtain ⟨hlen, hsz, hlast, hkeys, hinv⟩ := hw
  -- the scan finds the lowest non-empty bucket
  obtain ⟨e0, he0⟩ := List.exists_mem_of_ne_nil _ hne
  obtain ⟨i0, hi0, hei0⟩ := (mem_flatten_iff_getD _ _).mp he0
  have hscan : ∃ i, RadixHeap.scan h.buckets 1 64 = some i := by
    cases hs : RadixHeap.scan h.buckets 1 64 with
    | some i => exact ⟨i, rfl⟩
    | none =>
      have hi0pos : 1 ≤ i0 := by
        rcases Nat.eq_zero_or_pos i0 with h' | h'
        · rw [h', h0] at hei0
          simp at hei0
        · exact h'
      have := scan_none 64 1 hs i0 hi0pos (by omega)
      rw [this] at hei0
      simp at hei0
  obtain ⟨i, hscan⟩ := hscan
  obtain ⟨hi1, hi2, hib, himin⟩ := scan_some 64 1 i hscan
  -- name the pieces of relocate
  set b := h.buckets.getD i [] with hb
  set new_last := b.foldl (fun m p => if p.1 < m then p.1 else m) (b.headD (0, 0)).1
    with hnl
  -- the minimum is a key of bucket i
  have hmem_nl : new_last ∈ b.map Prod.fst := by
    rcases foldl_min_mem b (b.headD (0, 0)).1 with h' | h'
    · rw [← hnl] at h'
      rw [h']
      cases hbb : b with
      | nil => rw [hbb] at hib; exact absurd rfl hib
      | cons x xs =>
        simp [hbb]
    · rwa [← hnl] at h'
  have hmin : ∀ p ∈ b, new_last ≤ p.1 := by
    intro p hp
    have := (foldl_min_le b (b.headD (0, 0)).1).2 p hp
    rwa [← hnl] at this
  -- membership of bucket i entries in the flattened heap
  have hmemb : ∀ p ∈ b, p ∈ h.buckets.flatten := by
    intro p hp
    exact (mem_flatten_iff_getD _ _).mpr ⟨i, by omega, hp⟩
  obtain ⟨q, hqb, hq1⟩ := List.exists_of_mem_map hmem_nl
  have hnl_lt : new_last < M64 := by
    rw [← hq1]
    exact hkeys q (hmemb q hqb)
  -- all bucket i entries have XOR-index i relative to the old watermark
  have hbi : ∀ p ∈ b, bucket_index (p.1 ^^^ h.last) = i := by
    intro p hp
    exact hinv i (by omega) p hp
  -- entries of bucket i move strictly down
  have hdown : ∀ p ∈ b, bucket_index (p.1 ^^^ new_last) < i := by
    intro p hp
    have hx : p.1 ^^^ h.last < M64 :=
      Nat.xor_lt_two_pow (hkeys p (hmemb p hp)) hlast
    have hy : new_last ^^^ h.last < M64 := Nat.xor_lt_two_pow hnl_lt hlast
    have hxi : bucket_index (p.1 ^^^ h.last) = i := hbi p hp
    have hyi : bucket_index (new_last ^^^ h.last) = i := by
      rw [← hq1]
      exact hbi q hqb
    have := bucket_index_xor_cancel hx hy hxi hyi hi1
    rwa [xor_mix] at this
  -- the redistribution fold
  have hrange : ∀ it ∈ b, bucket_index (it.1 ^^^ new_last) < h.buckets.length := by
    intro it hit
    rw [hlen]
    have := hdown it hit
    omega
  set f : ℕ × ℕ → ℕ := fun item => bucket_index (item.1 ^^^ new_last) with hf
  set bs' := b.foldl (fun bs it => bs.set (f it) (bs.getD (f it) [] ++ [it]))
    h.buckets with hbs'
  have hlen' : bs'.length = h.buckets.length := fold_append_length f b h.buckets
  have hperm' : bs'.flatten.Perm (h.buckets.flatten ++ b) :=
    fold_append_perm f b h.buckets hrange
  have hfnei : ∀ it ∈ b, f it ≠ i := by
    intro it hit
    have := hdown it hit
    simp only [hf]
    omega
  have hgetDi : bs'.getD i [] = b := by
    rw [hbs', fold_append_getD_untouched f b h.buckets i hfnei, ← hb]
  -- the final heap
  set hres : RadixHeap := { buckets := bs'.set i [], last := new_last, sz := h.sz }
    with hhres
  have hreseq : h.relocate = some hres := by
    simp only [RadixHeap.relocate, hscan]
  have hgetD0 : hres.buckets.getD 0 [] = bs'.getD 0 [] := by
    simp only [hhres]
    exact getD_set_ne _ _ _ (by omega)
  have hflat : hres.buckets.flatten.Perm h.buckets.flatten := by
    have h1 : bs'.flatten.Perm (b ++ (bs'.set i []).flatten) := by
      have := flatten_set_nil_perm bs' i (by omega)
      rwa [hgetDi] at this
    have h2 : (b ++ (bs'.set i []).flatten).Perm (h.buckets.flatten ++ b) :=
      h1.symm.trans hperm'
    have h3 : (b ++ (bs'.set i []).flatten).Perm (b ++ h.buckets.flatten) :=
      h2.trans List.perm_append_comm
    have h4 := (List.perm_append_left_iff b).mp h3
    simpa only [hhres] using h4
  have hb0ne : hres.buckets.getD 0 [] ≠ [] := by
    rw [hgetD0, hbs']
    apply fold_append_getD_nonempty f b h.buckets 0 hrange
    right
    refine ⟨q, hqb, ?_⟩
    simp only [hf, hq1, Nat.xor_self]
    rfl
  refine ⟨i, hres, hscan, hreseq, ⟨?_, ?_, ?_, ?_, ?_⟩, hflat, rfl, hi1, by omega,
    hib, fun j hj1 hj2 => himin j hj1 hj2, hmem_nl, hmin, hdown, hb0ne⟩
  · simp only [hhres]
    rw [List.length_set, hlen', hlen]
  · show hres.sz = hres.buckets.flatten.length
    rw [hflat.length_eq]
    simpa only [hhres] using hsz
  · exact hnl_lt
  · intro e he
    exact hkeys e (hflat.mem_iff.mp he)
  · -- the bucket invariant for the relocated heap
    intro j hj e he
    have hjlen : j < 65 := by
      simpa only [hhres, List.length_set, hlen', hlen] using hj
    by_cases hji : j = i
    · rw [hji] at he
      have : hres.buckets.getD i [] = [] := by
        simp only [hhres]
        exact getD_set_self _ _ _ _ (by omega)
      rw [this] at he
      simp at he
    · have he' : e ∈ bs'.getD j [] := by
        simpa only [hhres, getD_set_ne _ _ _ (fun hx => hji hx.symm)] using he
      have hlastres : hres.last = new_last := rfl
      rw [hlastres]
      rcases fold_append_mem_getD f b h.buckets j e he' with h1 | h1
      · -- an entry of an untouched bucket: it keeps its index
        have hj0 : j ≠ 0 := by
          intro hx
          rw [hx, h0] at h1
          simp at h1
        have hjgt : i < j := by
          rcases Nat.lt_or_ge i j with h' | h'
          · exact h'
          · rcases Nat.eq_or_lt_of_le h' with h'' | h''
            · exact absurd h'' hji
            · rw [himin j (by omega) h''] at h1
              simp at h1
        have hold : bucket_index (e.1 ^^^ h.last) = j :=
          hinv j (by omega) e h1
        have hx : e.1 ^^^ h.last < M64 :=
          Nat.xor_lt_two_pow (hkeys e ((mem_flatten_iff_getD _ _).mpr ⟨j, by omega, h1⟩)) hlast
        have hy : new_last ^^^ h.last < M64 := Nat.xor_lt_two_pow hnl_lt hlast
        have hyi : bucket_index (new_last ^^^ h.last) = i := by
          rw [← hq1]
          exact hbi q hqb
        have := bucket_index_xor_keep hx hy hold hyi hjgt
        rwa [xor_mix] at this
      · exact h1.2

theorem flatten_set_sub {α : Type} (bs : List (List α)) (i : ℕ) (l' : List α)
    (h : i < bs.length) :
    (bs.set i l').flatten.Perm (l' ++ (bs.set i []).flatten) := by
  have h1 := flatten_set_nil_perm (bs.set i l') i (by rwa [List.length_set])
  rwa [getD_set_self _ _ _ _ h, List.set_set] at h1

/-- Removing the back of a non-empty bucket 0 (`res = buckets[0].back();
buckets[0].pop_back(); --sz;`). -/
theorem radix_pop0_spec {h : RadixHeap} (hw : RadixWF h)
    (h0 : h.buckets.getD 0 [] ≠ []) :
    ∃ k v h', h.pop = some ((k, v), h') ∧ RadixWF h' ∧
      h.buckets.flatten.Perm ((k, v) :: h'.buckets.flatten) ∧
      h'.sz = h.sz - 1 ∧ h'.last = h.last ∧ k = h.last := by
  obtain ⟨hlen, hsz, hlast, hkeys, hinv⟩ := hw
  set b0 := h.buckets.getD 0 [] with hb0
  have hlast? : b0.getLast? = some (b0.getLast h0) := List.getLast?_eq_getLast b0 h0
  set res := b0.getLast h0 with hres
  have hresmem : res ∈ b0 := List.getLast_mem h0
  have hresflat : res ∈ h.buckets.flatten :=
    (mem_flatten_iff_getD _ _).mpr ⟨0, by omega, hresmem⟩
  have hkey : res.1 = h.last := by
    have hx : res.1 ^^^ h.last < M64 :=
      Nat.xor_lt_two_pow (hkeys res hresflat) hlast
    have := hinv 0 (by omega) res hresmem
    exact Nat.xor_eq_zero.mp ((bucket_index_eq_zero_iff hx).mp this)
  set h' : RadixHeap :=
    { h with buckets := h.buckets.set 0 b0.dropLast, sz := h.sz - 1 } with hh'
  have hpop : h.pop = some (res, h') := by
    rw [RadixHeap.pop, if_neg (by exact fun hx => h0 hx)]
    simp only [← hb0, hlast?]
  have hsplit : b0.dropLast ++ [res] = b0 := List.dropLast_append_getLast h0
  have hperm : h.buckets.flatten.Perm (res :: h'.buckets.flatten) := by
    have h1 : h.buckets.flatten.Perm (b0 ++ (h.buckets.set 0 []).flatten) :=
      flatten_set_nil_perm h.buckets 0 (by omega)
    have h2 : h'.buckets.flatten.Perm (b0.dropLast ++ (h.buckets.set 0 []).flatten) :=
      flatten_set_sub h.buckets 0 b0.dropLast (by omega)
    refine h1.trans ?_
    have h3 : (b0 ++ (h.buckets.set 0 []).flatten).Perm
        (res :: (b0.dropLast ++ (h.buckets.set 0 []).flatten)) := by
      nth_rewrite 1 [← hsplit]
      rw [List.append_assoc]
      exact List.perm_middle
    exact h3.trans ((h2.symm).cons res)
  refine ⟨res.1, res.2, h', by simpa using hpop, ⟨?_, ?_, hlast, ?_, ?_⟩, by simpa using hperm,
    rfl, rfl, hkey⟩
  · simp only [hh', List.length_set, hlen]
  · show h'.sz = h'.buckets.flatten.length
    have hlen2 : h.buckets.flatten.length = h'.buckets.flatten.length + 1 := by
      rw [hperm.length_eq]
      rfl
    have hsz1 : h'.sz = h.sz - 1 := rfl
    have hszpos : 1 ≤ h.sz := by
      rw [hsz]
      omega
    omega
  · intro e he
    exact hkeys e (hperm.mem_iff.mpr (List.mem_cons_of_mem res he))
  · intro j hj e he
    have hjlen : j < h.buckets.length := by
      simpa only [hh', List.length_set] using hj
    by_cases hj0 : j = 0
    · subst hj0
      have : h'.buckets.getD 0 [] = b0.dropLast := by
        simp only [hh']
        exact getD_set_self _ _ _ _ (by omega)
      rw [this] at he
      exact hinv 0 (by omega) e (List.mem_of_mem_dropLast he)
    · have : h'.buckets.getD j [] = h.buckets.getD j [] := by
        simp only [hh']
        exact getD_set_ne _ _ _ (fun hx => hj0 hx.symm)
      rw [this] at he
      exact hinv j hjlen e he

/-- `RadixHeap::pop` on a well-formed non-empty heap: it succeeds, removes
one stored entry, and the popped key equals the (possibly relocated)
watermark. -/
theorem radix_pop_spec {h : RadixHeap} (hw : RadixWF h)
    (hne : h.buckets.flatten ≠ []) :
    ∃ k v h', h.pop = some ((k, v), h') ∧ RadixWF h' ∧
      h.buckets.flatten.Perm ((k, v) :: h'.buckets.flatten) ∧
      h'.sz = h.sz - 1 ∧ h'.last = k := by
  by_cases h0 : h.buckets.getD 0 [] = []
  · obtain ⟨i, hmid, hscan, hreloc, hw', hperm', hsz', _, _, _, _, _, _, _, hb0⟩ :=
      radix_relocate_spec ⟨hw.1, hw.2.1, hw.2.2.1, hw.2.2.2.1, hw.2.2.2.2⟩ h0 hne
    obtain ⟨k, v, h', hpop, hw'', hperm'', hsz'', hlast'', hkey⟩ :=
      radix_pop0_spec hw' hb0
    refine ⟨k, v, h', ?_, hw'', ?_, ?_, ?_⟩
    · rw [RadixHeap.pop, if_pos h0, hreloc]
      rw [RadixHeap.pop] at hpop
      rcases hx : hmid.buckets.getD 0 [] with _ | _
      · exact absurd hx hb0
      · rw [if_neg (by rw [hx]; simp)] at hpop
        exact hpop
    · exact hperm'.symm.trans hperm''
    · rw [hsz'', hsz']
    · rw [hlast'', hkey]
  · obtain ⟨k, v, h', hpop, hw', hperm, hsz', hlast', hkey⟩ := radix_pop0_spec hw h0
    exact ⟨k, v, h', hpop, hw', hperm, hsz', by rw [hlast', hkey]⟩

/-! ## Queue laws: what the relaxation loop needs from a queue -/

/-- A multiset view `μ` of a queue implementation and an invariant `W`
preserved by its operations: `pop` on a non-empty queue returns some stored
entry and removes it, `push` adds one. -/
structure PQLaws {σ : Type} (Q : PQ σ) : Type where
  μ : σ → Multiset (ℕ × ℕ)
  W : σ → Prop
  isEmpty_iff : ∀ q, W q → (Q.isEmpty q = true ↔ μ q = 0)
  pop_spec : ∀ q, W q → μ q ≠ 0 →
    ∃ k v q', Q.pop q = some ((k, v), q') ∧ W q' ∧ μ q = (k, v) ::ₘ μ q'
  push_spec : ∀ q k v, W q → k < M64 →
    W (Q.push k v q) ∧ μ (Q.push k v q) = (k, v) ::ₘ μ q

theorem binPopMin_pick_mem :
    ∀ (xs : List (ℕ × ℕ)) (x : ℕ × ℕ),
      (xs.foldl (fun a b => if b.1 < a.1 ∨ (b.1 = a.1 ∧ b.2 < a.2) then b else a) x) = x ∨
      (xs.foldl (fun a b => if b.1 < a.1 ∨ (b.1 = a.1 ∧ b.2 < a.2) then b else a) x) ∈ xs := by
  intro xs
  induction xs with
  | nil => intro x; exact Or.inl rfl
  | cons y ys ih =>
    intro x
    rw [List.foldl_cons]
    by_cases hy : y.1 < x.1 ∨ (y.1 = x.1 ∧ y.2 < x.2)
    · rw [if_pos hy]
      rcases ih y with h | h
      · exact Or.inr (by rw [h]; exact List.mem_cons_self y ys)
      · exact Or.inr (List.mem_cons_of_mem y h)
    · rw [if_neg hy]
      rcases ih x with h | h
      · exact Or.inl h
      · exact Or.inr (List.mem_cons_of_mem y h)

theorem perm_cons_removeOne :
    ∀ (l : List (ℕ × ℕ)) (m : ℕ × ℕ), m ∈ l → l.Perm (m :: removeOne l m) := by
  intro l
  induction l with
  | nil => intro m hm; simp at hm
  | cons x xs ih =>
    intro m hm
    rw [removeOne]
    by_cases hx : x = m
    · rw [if_pos hx, hx]
    · rw [if_neg hx]
      have hm' : m ∈ xs := by
        rcases List.mem_cons.mp hm with h | h
        · exact absurd h.symm hx
        · exact h
      have h1 : (x :: xs).Perm (x :: (m :: removeOne xs m)) := (ih m hm').cons x
      exact h1.trans (List.Perm.swap m x _)

/-- The binary heap obeys the queue laws (with the trivial invariant). -/
def binLaws : PQLaws binPQ where
  μ q := (q : Multiset (ℕ × ℕ))
  W _ := True
  isEmpty_iff := by
    intro q _
    show q.isEmpty = true ↔ (q : Multiset (ℕ × ℕ)) = 0
    rw [List.isEmpty_iff, Multiset.coe_eq_zero]
  pop_spec := by
    intro q _ hne
    have hq : q ≠ [] := by
      intro hx
      rw [hx] at hne
      exact hne rfl
    cases hq2 : q with
    | nil => exact absurd hq2 hq
    | cons x xs =>
      set m := xs.foldl (fun a b => if b.1 < a.1 ∨ (b.1 = a.1 ∧ b.2 < a.2) then b else a) x
        with hm
      have hmem : m ∈ x :: xs := by
        rcases binPopMin_pick_mem xs x with h | h
        · rw [← hm] at h
          rw [h]
          exact List.mem_cons_self x xs
        · rw [← hm] at h
          exact List.mem_cons_of_mem x h
      refine ⟨m.1, m.2, removeOne (x :: xs) m, rfl, trivial, ?_⟩
      show ((x :: xs : List (ℕ × ℕ)) : Multiset (ℕ × ℕ)) =
        (m.1, m.2) ::ₘ (removeOne (x :: xs) m : Multiset (ℕ × ℕ))
      have := perm_cons_removeOne (x :: xs) m hmem
      rw [Multiset.coe_eq_coe.mpr this]
      rfl
  push_spec := by
    intro q k v _ _
    exact ⟨trivial, rfl⟩

/-- The radix heap obeys the queue laws with invariant `RadixWF`. -/
def radixLaws : PQLaws radixPQ where
  μ h := (h.buckets.flatten : Multiset (ℕ × ℕ))
  W := RadixWF
  isEmpty_iff := by
    intro q hw
    show q.isEmpty = true ↔ (q.buckets.flatten : Multiset (ℕ × ℕ)) = 0
    rw [RadixHeap.isEmpty, Multiset.coe_eq_zero, beq_iff_eq, hw.2.1,
      List.length_eq_zero]
  pop_spec := by
    intro q hw hne
    have hne' : q.buckets.flatten ≠ [] := by
      intro hx
      apply hne
      show (q.buckets.flatten : Multiset (ℕ × ℕ)) = 0
      rw [Multiset.coe_eq_zero]
      exact hx
    obtain ⟨k, v, q', hpop, hw', hperm, _, _⟩ := radix_pop_spec hw hne'
    refine ⟨k, v, q', hpop, hw', ?_⟩
    show (q.buckets.flatten : Multiset (ℕ × ℕ)) =
      (k, v) ::ₘ (q'.buckets.flatten : Multiset (ℕ × ℕ))
    rw [Multiset.coe_eq_coe.mpr hperm]
    rfl
  push_spec := by
    intro q k v hw hk
    obtain ⟨hw', hperm, _, _⟩ := radixWF_push hw hk
    refine ⟨hw', ?_⟩
    show ((q.push k v).buckets.flatten : Multiset (ℕ × ℕ)) =
      (k, v) ::ₘ (q.buckets.flatten : Multiset (ℕ × ℕ))
    rw [Multiset.coe_eq_coe.mpr hperm]
    rfl

theorem radix_init_push_flatten (s : ℕ) :
    RadixWF (RadixHeap.init.push 0 s) ∧
      (RadixHeap.init.push 0 s).buckets.flatten.Perm [(0, s)] := by
  have hk : (0 : ℕ) < M64 := by norm_num [M64]
  obtain ⟨hw, hperm, _, _⟩ := radixWF_push (h := RadixHeap.init) (k := 0) (v := s)
    radixWF_init hk
  refine ⟨hw, ?_⟩
  have h0 : RadixHeap.init.buckets.flatten = [] := rfl
  rw [h0] at hperm
  exact hperm

/-! ## Shortest-path semantics -/

/-- A walk from `s` of a given total weight, following adjacency lists. -/
inductive Walk (g : Graph) (s : ℕ) : ℕ → ℕ → Prop
  | nil : Walk g s s 0
  | cons {u d : ℕ} (e : Edge) (he : e ∈ g.getD u []) (hu : u < g.length)
      (hw : Walk g s u d) : Walk g s e.dst (d + e.weight)

/-- Well-formedness of a parsed graph: edge targets are nodes and weights
fit in 64 bits. -/
def WFGraph (g : Graph) : Prop :=
  ∀ l ∈ g, ∀ e ∈ l, e.dst < g.length ∧ e.weight < M64

/-- The sum of all edge weights of the graph. -/
def totalWeight (g : Graph) : ℕ :=
  (g.map (fun l => (l.map Edge.weight).sum)).sum

theorem adj_mem {g : Graph} {u : ℕ} (hu : u < g.length) : g.getD u [] ∈ g := by
  rw [List.getD_eq_getElem _ _ hu]
  exact List.getElem_mem hu

theorem weight_le_total {g : Graph} {u : ℕ} {e : Edge} (hu : u < g.length)
    (he : e ∈ g.getD u []) : e.weight ≤ totalWeight g := by
  have h1 : e.weight ≤ ((g.getD u []).map Edge.weight).sum := by
    apply List.single_le_sum (fun x _ => Nat.zero_le x)
    exact List.mem_map_of_mem Edge.weight he
  have h2 : ((g.getD u []).map Edge.weight).sum ≤ totalWeight g := by
    apply List.single_le_sum (fun x _ => Nat.zero_le x)
    exact List.mem_map_of_mem _ (adj_mem hu)
  omega

theorem wf_edge {g : Graph} {u : ℕ} {e : Edge} (hwf : WFGraph g)
    (hu : u < g.length) (he : e ∈ g.getD u []) :
    e.dst < g.length ∧ e.weight < M64 :=
  hwf _ (adj_mem hu) e he

theorem walk_dst_lt {g : Graph} {s : ℕ} (hwf : WFGraph g) (hs : s < g.length) :
    ∀ {v c : ℕ}, Walk g s v c → v < g.length := by
  intro v c hw
  cases hw with
  | nil => exact hs
  | cons e he hu _ => exact (wf_edge hwf hu he).1

/-- The facts a completed relaxation run establishes about its distance
vector: correct length, source 0, soundness (every finite entry is the
weight of a walk, all bounded), and the relaxation fixpoint. -/
def FinalDist (g : Graph) (s : ℕ) (dist : List ℕ) : Prop :=
  dist.length = g.length ∧
  dist.getD s 0 = 0 ∧
  (∀ v, v < g.length → dist.getD v 0 = INF ∨
    (Walk g s v (dist.getD v 0) ∧ dist.getD v 0 ≤ g.length * totalWeight g)) ∧
  (∀ u, u < g.length → dist.getD u 0 ≠ INF →
    ∀ e ∈ g.getD u [], dist.getD e.dst 0 ≤ dist.getD u 0 + e.weight)

theorem nS_lt_INF {g : Graph} (hS : (g.length + 1) * totalWeight g < INF) :
    g.length * totalWeight g < INF := by
  have h1 : g.length * totalWeight g ≤ (g.length + 1) * totalWeight g :=
    mul_le_mul_right' (by omega) (totalWeight g)
  omega

theorem finalDist_le_walk {g : Graph} {s : ℕ} {dist : List ℕ}
    (hS : (g.length + 1) * totalWeight g < INF) (hf : FinalDist g s dist) :
    ∀ {v c : ℕ}, Walk g s v c → c ≤ g.length * totalWeight g →
      dist.getD v 0 ≤ c := by
  intro v c hw
  induction hw with
  | nil =>
    intro _
    rw [hf.2.1]
  | @cons u d e he hu hwalk ih =>
    intro hc
    have hd : dist.getD u 0 ≤ d := ih (by omega)
    have hlt : dist.getD u 0 ≠ INF := by
      have h1 := nS_lt_INF hS
      intro hx
      rw [hx] at hd
      omega
    have := hf.2.2.2 u hu hlt e he
    omega

theorem finalDist_unique {g : Graph} {s : ℕ} {d1 d2 : List ℕ}
    (_hwf : WFGraph g) (_hs : s < g.length)
    (hS : (g.length + 1) * totalWeight g < INF)
    (h1 : FinalDist g s d1) (h2 : FinalDist g s d2) : d1 = d2 := by
  have hmain : ∀ v, v < g.length → d1.getD v 0 = d2.getD v 0 := by
    have hle : ∀ (da db : List ℕ), FinalDist g s da → FinalDist g s db →
        ∀ v, v < g.length → da.getD v 0 ≠ INF → db.getD v 0 ≤ da.getD v 0 := by
      intro da db hda hdb v hv hne
      rcases hda.2.2.1 v hv with hx | ⟨hwalk, hbound⟩
      · exact absurd hx hne
      · exact finalDist_le_walk hS hdb hwalk hbound
    intro v hv
    by_cases hx1 : d1.getD v 0 = INF
    · by_cases hx2 : d2.getD v 0 = INF
      · rw [hx1, hx2]
      · have hb := hle d2 d1 h2 h1 v hv hx2
        have : d1.getD v 0 ≤ d2.getD v 0 := by
          rcases h2.2.2.1 v hv with hx | ⟨_, hbound⟩
          · exact absurd hx hx2
          · omega
        have h2b : d2.getD v 0 < INF := by
          rcases h2.2.2.1 v hv with hx | ⟨_, hbound⟩
          · exact absurd hx hx2
          · have hnS := nS_lt_INF hS
            omega
        omega
    · have hb1 := hle d1 d2 h1 h2 v hv hx1
      have hx2 : d2.getD v 0 ≠ INF := by
        have h1b : d1.getD v 0 < INF := by
          rcases h1.2.2.1 v hv with hx | ⟨_, hbound⟩
          · exact absurd hx hx1
          · have hnS := nS_lt_INF hS
            omega
        omega
      have hb2 := hle d2 d1 h2 h1 v hv hx2
      omega
  apply List.ext_getElem (by rw [h1.1, h2.1])
  intro n hn1 hn2
  have hv : n < g.length := by rw [← h1.1]; exact hn1
  have := hmain n hv
  rwa [List.getD_eq_getElem _ _ hn1, List.getD_eq_getElem _ _ hn2] at this

/-! ## The relaxation loop invariant -/

/-- The number of `INF` entries of a distance vector. -/
def countInf (dist : List ℕ) : ℕ := dist.count INF

theorem countInf_le_length (dist : List ℕ) : countInf dist ≤ dist.length := by
  unfold countInf
  exact List.count_le_length _ _

theorem countInf_set_of_inf {dist : List ℕ} {v x : ℕ} (hv : v < dist.length)
    (hinf : dist.getD v 0 = INF) (hx : x ≠ INF) :
    countInf (dist.set v x) + 1 = countInf dist := by
  have hg : dist[v] = INF := by
    rwa [List.getD_eq_getElem _ _ hv] at hinf
  unfold countInf
  rw [List.count_set _ _ _ _ hv]
  simp only [hg, beq_self_eq_true, if_true, beq_iff_eq, if_neg hx]
  have hm : INF ∈ dist := by
    rw [← hg]
    exact List.getElem_mem hv
  have : 1 ≤ dist.count INF := List.count_pos_iff.mpr hm
  omega

theorem countInf_set_of_ne {dist : List ℕ} {v x : ℕ} (hv : v < dist.length)
    (hinf : dist.getD v 0 ≠ INF) (hx : x ≠ INF) :
    countInf (dist.set v x) = countInf dist := by
  have hg : dist[v] ≠ INF := by
    rwa [List.getD_eq_getElem _ _ hv] at hinf
  unfold countInf
  rw [List.count_set _ _ _ _ hv]
  simp only [beq_iff_eq, if_neg hg, if_neg hx]
  omega

/-- The state of the relaxation loop while node `u` (popped with its
current distance `d`) is having its out-edges relaxed: all invariant
pieces except the queue-coverage of `u` itself. -/
def RBase {σ : Type} {Q : PQ σ} (PL : PQLaws Q) (g : Graph) (s u d : ℕ)
    (q : σ) (dist : List ℕ) : Prop :=
  PL.W q ∧
  dist.length = g.length ∧
  dist.getD s 0 = 0 ∧
  (∀ kv ∈ PL.μ q, kv.1 < INF ∧ kv.2 < g.length) ∧
  (∀ v, v < g.length → dist.getD v 0 = INF ∨
    (Walk g s v (dist.getD v 0) ∧
      dist.getD v 0 ≤ (g.length - countInf dist) * totalWeight g)) ∧
  (∀ x, x < g.length → x ≠ u → dist.getD x 0 ≠ INF →
    ((dist.getD x 0, x) ∈ PL.μ q ∨
      ∀ e ∈ g.getD x [], dist.getD e.dst 0 ≤ dist.getD x 0 + e.weight)) ∧
  dist.getD u 0 = d

theorem relax_step_spec {σ : Type} {Q : PQ σ} (PL : PQLaws Q) {g : Graph}
    {s u d : ℕ} (hwf : WFGraph g) (hS : (g.length + 1) * totalWeight g < INF)
    (hu : u < g.length) (hdINF : d ≠ INF)
    {q : σ} {dist : List ℕ} {e : Edge}
    (he : e ∈ g.getD u []) (hb : RBase PL g s u d q dist) :
    ∀ q1 dist1, relaxStep Q d (q, dist) e = (q1, dist1) →
      RBase PL g s u d q1 dist1 ∧
      dist1.getD e.dst 0 ≤ d + e.weight ∧
      (∀ x, dist1.getD x 0 ≤ dist.getD x 0) ∧
      (∀ kv ∈ PL.μ q, kv ∈ PL.μ q1) ∧
      dist1.sum + Multiset.card (PL.μ q1) ≤ dist.sum + Multiset.card (PL.μ q) := by
  obtain ⟨hW, hlen, hsrc, hkeys, hL2, hL4, hdu⟩ := hb
  have hedst : e.dst < g.length := (wf_edge hwf hu he).1
  have hwS : e.weight ≤ totalWeight g := weight_le_total hu he
  have hcle : countInf dist ≤ g.length := by
    have := countInf_le_length dist
    omega
  obtain ⟨hwalkd, hdbound⟩ : Walk g s u d ∧
      d ≤ (g.length - countInf dist) * totalWeight g := by
    rcases hL2 u hu with hx | ⟨hx1, hx2⟩
    · rw [hdu] at hx
      exact absurd hx hdINF
    · rw [hdu] at hx1 hx2
      exact ⟨hx1, hx2⟩
  have hmono : (g.length - countInf dist) * totalWeight g ≤
      g.length * totalWeight g := mul_le_mul_right' (by omega) _
  have hsplitS : (g.length + 1) * totalWeight g =
      g.length * totalWeight g + totalWeight g := by ring
  have hINFM : INF < M64 := by
    unfold INF M64
    norm_num
  have hndINF : d + e.weight < INF := by omega
  have hex : d + e.weight < M64 := by omega
  have hnd : (d + e.weight) % M64 = d + e.weight := Nat.mod_eq_of_lt hex
  intro q1 dist1 heq
  simp only [relaxStep, hnd] at heq
  by_cases hlt : d + e.weight < dist.getD e.dst 0
  · rw [if_pos hlt] at heq
    injection heq with heq1 heq2
    subst heq1
    subst heq2
    obtain ⟨hW1, hμ1⟩ := PL.push_spec q (d + e.weight) e.dst hW (by omega)
    have hdst_ne_s : e.dst ≠ s := by
      intro hx
      rw [hx, hsrc] at hlt
      omega
    have hdst_ne_u : e.dst ≠ u := by
      intro hx
      rw [hx, hdu] at hlt
      omega
    have hcc : countInf (dist.set e.dst (d + e.weight)) + 1 = countInf dist ∨
        (countInf (dist.set e.dst (d + e.weight)) = countInf dist ∧
          dist.getD e.dst 0 ≠ INF) := by
      by_cases hdi : dist.getD e.dst 0 = INF
      · exact Or.inl (countInf_set_of_inf (by omega) hdi (by omega))
      · exact Or.inr ⟨countInf_set_of_ne (by omega) hdi (by omega), hdi⟩
    have hc1le : countInf (dist.set e.dst (d + e.weight)) ≤ countInf dist := by
      rcases hcc with h | h
      · omega
      · omega
    have hptwise : ∀ x, (dist.set e.dst (d + e.weight)).getD x 0 ≤ dist.getD x 0 := by
      intro x
      by_cases hx : e.dst = x
      · subst hx
        rw [getD_set_self _ _ _ _ (by omega)]
        omega
      · rw [getD_set_ne _ _ _ hx]
    have hbmono : (g.length - countInf dist) * totalWeight g ≤
        (g.length - countInf (dist.set e.dst (d + e.weight))) * totalWeight g :=
      mul_le_mul_right' (by omega) _
    refine ⟨⟨hW1, ?_, ?_, ?_, ?_, ?_, ?_⟩, ?_, hptwise, ?_, ?_⟩
    · rw [List.length_set, hlen]
    · rw [getD_set_ne _ _ _ hdst_ne_s, hsrc]
    · intro kv hkv
      rw [hμ1] at hkv
      rcases Multiset.mem_cons.mp hkv with hkv | hkv
      · rw [hkv]
        exact ⟨hndINF, hedst⟩
      · exact hkeys kv hkv
    · -- soundness of every finite entry after the update
      intro v hv
      by_cases hveq : e.dst = v
      · subst hveq
        right
        rw [getD_set_self _ _ _ _ (by omega)]
        refine ⟨Walk.cons e he hu hwalkd, ?_⟩
        rcases hcc with h | h
        · have hmul : (g.length - countInf dist + 1) * totalWeight g =
              (g.length - countInf dist) * totalWeight g + totalWeight g :=
            Nat.succ_mul _ _
          have heqc : g.length - countInf (dist.set e.dst (d + e.weight)) =
              g.length - countInf dist + 1 := by omega
          rw [heqc]
          omega
        · rcases hL2 e.dst (by omega) with hx | ⟨_, hx2⟩
          · exact absurd hx h.2
          · rw [h.1]
            omega
      · rw [getD_set_ne _ _ _ hveq]
        rcases hL2 v hv with hx | ⟨hx1, hx2⟩
        · exact Or.inl hx
        · exact Or.inr ⟨hx1, by omega⟩
    · -- queue coverage for every settled node other than u
      intro x hx hxu hxINF
      by_cases hveq : e.dst = x
      · subst hveq
        left
        rw [getD_set_self _ _ _ _ (by omega), hμ1]
        exact Multiset.mem_cons_self _ _
      · rw [getD_set_ne _ _ _ hveq] at hxINF ⊢
        rcases hL4 x hx hxu hxINF with hc | hc
        · left
          rw [hμ1]
          exact Multiset.mem_cons_of_mem hc
        · right
          intro e' he'
          have h1 := hc e' he'
          have h2 := hptwise e'.dst
          omega
    · rw [getD_set_ne _ _ _ hdst_ne_u, hdu]
    · rw [getD_set_self _ _ _ _ (by omega)]
    · intro kv hkv
      rw [hμ1]
      exact Multiset.mem_cons_of_mem hkv
    · have hsum := sum_set_getD dist e.dst (d + e.weight) (by omega)
      rw [hμ1]
      simp only [Multiset.card_cons]
      omega
  · rw [if_neg hlt] at heq
    injection heq with heq1 heq2
    subst heq1
    subst heq2
    refine ⟨⟨hW, hlen, hsrc, hkeys, hL2, hL4, hdu⟩, by omega, fun x => le_refl _,
      fun kv hkv => hkv, le_refl _⟩

theorem relax_fold_spec {σ : Type} {Q : PQ σ} (PL : PQLaws Q) {g : Graph}
    {s u d : ℕ} (hwf : WFGraph g) (hS : (g.length + 1) * totalWeight g < INF)
    (hu : u < g.length) (hdINF : d ≠ INF) :
    ∀ (es : List Edge) (q : σ) (dist : List ℕ),
      (∀ e ∈ es, e ∈ g.getD u []) → RBase PL g s u d q dist →
      ∀ q2 dist2, es.foldl (relaxStep Q d) (q, dist) = (q2, dist2) →
        RBase PL g s u d q2 dist2 ∧
        (∀ e ∈ es, dist2.getD e.dst 0 ≤ d + e.weight) ∧
        (∀ x, dist2.getD x 0 ≤ dist.getD x 0) ∧
        (∀ kv ∈ PL.μ q, kv ∈ PL.μ q2) ∧
        dist2.sum + Multiset.card (PL.μ q2) ≤ dist.sum + Multiset.card (PL.μ q) := by
  intro es
  induction es with
  | nil =>
    intro q dist _ hb q2 dist2 heq
    rw [List.foldl_nil] at heq
    injection heq with h1 h2
    subst h1
    subst h2
    exact ⟨hb, by simp, fun x => le_refl _, fun kv hkv => hkv, le_refl _⟩
  | cons e rest ih =>
    intro q dist hes hb q2 dist2 heq
    rw [List.foldl_cons] at heq
    have hstep := relax_step_spec PL hwf hS hu hdINF
      (hes e (List.mem_cons_self e rest)) hb
      (relaxStep Q d (q, dist) e).1 (relaxStep Q d (q, dist) e).2 (by
        rw [Prod.mk.eta])
    obtain ⟨hb1, hde, hpt1, hμm1, hΦ1⟩ := hstep
    rw [← Prod.mk.eta (p := relaxStep Q d (q, dist) e)] at heq
    obtain ⟨hb2, hrest, hpt2, hμm2, hΦ2⟩ :=
      ih _ _ (fun e' he' => hes e' (List.mem_cons_of_mem e he')) hb1 q2 dist2 heq
    refine ⟨hb2, ?_, ?_, ?_, ?_⟩
    · intro e' he'
      rcases List.mem_cons.mp he' with h1 | h1
      · rw [h1]
        have := hpt2 e.dst
        have h2 : dist2.getD e.dst 0 ≤ d + e.weight := by
          rw [h1] at *
          omega
        exact h2
      · exact hrest e' h1
    · intro x
      have := hpt1 x
      have := hpt2 x
      omega
    · intro kv hkv
      exact hμm2 kv (hμm1 kv hkv)
    · omega

/-- The loop invariant of the shared relaxation loop, between iterations. -/
def LoopInv {σ : Type} {Q : PQ σ} (PL : PQLaws Q) (g : Graph) (s : ℕ)
    (q : σ) (dist : List ℕ) : Prop :=
  PL.W q ∧
  dist.length = g.length ∧
  dist.getD s 0 = 0 ∧
  (∀ kv ∈ PL.μ q, kv.1 < INF ∧ kv.2 < g.length) ∧
  (∀ v, v < g.length → dist.getD v 0 = INF ∨
    (Walk g s v (dist.getD v 0) ∧
      dist.getD v 0 ≤ (g.length - countInf dist) * totalWeight g)) ∧
  (∀ u, u < g.length → dist.getD u 0 ≠ INF →
    ((dist.getD u 0, u) ∈ PL.μ q ∨
      ∀ e ∈ g.getD u [], dist.getD e.dst 0 ≤ dist.getD u 0 + e.weight))

theorem loopInv_final {σ : Type} {Q : PQ σ} (PL : PQLaws Q) {g : Graph}
    {s : ℕ} {q : σ} {dist : List ℕ} (hinv : LoopInv PL g s q dist)
    (hempty : PL.μ q = 0) : FinalDist g s dist := by
  obtain ⟨hW, hlen, hsrc, hkeys, hL2, hL4⟩ := hinv
  have hcle : countInf dist ≤ g.length := by
    have := countInf_le_length dist
    omega
  refine ⟨hlen, hsrc, ?_, ?_⟩
  · intro v hv
    rcases hL2 v hv with hx | ⟨hx1, hx2⟩
    · exact Or.inl hx
    · refine Or.inr ⟨hx1, ?_⟩
      have : (g.length - countInf dist) * totalWeight g ≤
          g.length * totalWeight g := mul_le_mul_right' (by omega) _
      omega
  · intro u hu hne
    rcases hL4 u hu hne with hc | hc
    · rw [hempty] at hc
      exact absurd hc (Multiset.not_mem_zero _)
    · exact hc

theorem loopInv_stale {σ : Type} {Q : PQ σ} (PL : PQLaws Q) {g : Graph}
    {s d u : ℕ} {q q' : σ} {dist : List ℕ} (hinv : LoopInv PL g s q dist)
    (hW' : PL.W q') (hμ : PL.μ q = (d, u) ::ₘ PL.μ q')
    (hstale : d ≠ dist.getD u 0) : LoopInv PL g s q' dist := by
  obtain ⟨hW, hlen, hsrc, hkeys, hL2, hL4⟩ := hinv
  refine ⟨hW', hlen, hsrc, ?_, hL2, ?_⟩
  · intro kv hkv
    exact hkeys kv (by rw [hμ]; exact Multiset.mem_cons_of_mem hkv)
  · intro x hx hne
    rcases hL4 x hx hne with hc | hc
    · left
      rw [hμ] at hc
      rcases Multiset.mem_cons.mp hc with h1 | h1
      · exfalso
        apply hstale
        injection h1 with hfst hsnd
        exact (hsnd ▸ hfst).symm
      · exact h1
    · exact Or.inr hc

theorem loopInv_pop_base {σ : Type} {Q : PQ σ} (PL : PQLaws Q) {g : Graph}
    {s d u : ℕ} {q q' : σ} {dist : List ℕ}
    (hinv : LoopInv PL g s q dist)
    (hW' : PL.W q') (hμ : PL.μ q = (d, u) ::ₘ PL.μ q')
    (hd : d = dist.getD u 0) :
    RBase PL g s u d q' dist ∧ d ≠ INF ∧ u < g.length := by
  obtain ⟨hW, hlen, hsrc, hkeys, hL2, hL4⟩ := hinv
  have hdu_mem : (d, u) ∈ PL.μ q := by
    rw [hμ]
    exact Multiset.mem_cons_self _ _
  obtain ⟨hdINF, hu⟩ := hkeys (d, u) hdu_mem
  refine ⟨⟨hW', hlen, hsrc, ?_, hL2, ?_, hd.symm⟩, by omega, hu⟩
  · intro kv hkv
    exact hkeys kv (by rw [hμ]; exact Multiset.mem_cons_of_mem hkv)
  · intro x hx hxu hne
    rcases hL4 x hx hne with hc | hc
    · left
      rw [hμ] at hc
      rcases Multiset.mem_cons.mp hc with h1 | h1
      · simp only [Prod.mk.injEq] at h1
        exact absurd h1.2 hxu
      · exact h1
    · exact Or.inr hc

theorem loopInv_process {σ : Type} {Q : PQ σ} (PL : PQLaws Q) {g : Graph}
    {s d u : ℕ} {q q' : σ} {dist : List ℕ}
    (hwf : WFGraph g) (hS : (g.length + 1) * totalWeight g < INF)
    (hinv : LoopInv PL g s q dist)
    (hW' : PL.W q') (hμ : PL.μ q = (d, u) ::ₘ PL.μ q')
    (hd : d = dist.getD u 0) :
    ∀ q2 dist2, (g.getD u []).foldl (relaxStep Q d) (q', dist) = (q2, dist2) →
      LoopInv PL g s q2 dist2 ∧
      dist2.sum + Multiset.card (PL.μ q2) ≤ dist.sum + Multiset.card (PL.μ q') := by
  obtain ⟨hbase, hdINF, hu⟩ := loopInv_pop_base PL hinv hW' hμ hd
  obtain ⟨hW, hlen, hsrc, hkeys, hL2, hL4⟩ := hinv
  intro q2 dist2 heq
  obtain ⟨⟨hW2, hlen2, hsrc2, hkeys2, hL22, hL42, hdu2⟩, hdone, hpt, hμm, hΦ⟩ :=
    relax_fold_spec PL hwf hS hu (by omega) (g.getD u []) q' dist
      (fun e he => he) hbase q2 dist2 heq
  refine ⟨⟨hW2, hlen2, hsrc2, hkeys2, hL22, ?_⟩, hΦ⟩
  intro x hx hne
  by_cases hxu : x = u
  · subst hxu
    right
    intro e he
    have := hdone e he
    rw [hdu2]
    omega
  · rcases hL42 x hx hxu hne with hc | hc
    · exact Or.inl hc
    · exact Or.inr hc

theorem ssspLoop_sound {σ : Type} {Q : PQ σ} (PL : PQLaws Q) {g : Graph}
    {s : ℕ} (hwf : WFGraph g) (hS : (g.length + 1) * totalWeight g < INF) :
    ∀ (fuel : ℕ) (q : σ) (dist : List ℕ) (r : List ℕ) (qf : σ),
      LoopInv PL g s q dist → ssspLoop Q g fuel q dist = some (r, qf) →
      FinalDist g s r := by
  intro fuel
  induction fuel with
  | zero =>
    intro q dist r qf hinv hrun
    rw [ssspLoop] at hrun
    by_cases hq : Q.isEmpty q = true
    · rw [if_pos hq] at hrun
      injection hrun with h1
      injection h1 with h2 h3
      subst h2
      exact loopInv_final PL hinv ((PL.isEmpty_iff q hinv.1).mp hq)
    · rw [if_neg hq] at hrun
      exact absurd hrun (by simp)
  | succ fuel ih =>
    intro q dist r qf hinv hrun
    rw [ssspLoop] at hrun
    by_cases hq : Q.isEmpty q = true
    · rw [if_pos hq] at hrun
      injection hrun with h1
      injection h1 with h2 h3
      subst h2
      exact loopInv_final PL hinv ((PL.isEmpty_iff q hinv.1).mp hq)
    · rw [if_neg hq] at hrun
      have hμne : PL.μ q ≠ 0 := by
        intro hx
        exact hq ((PL.isEmpty_iff q hinv.1).mpr hx)
      obtain ⟨k, v, q', hpop, hW', hμ⟩ := PL.pop_spec q hinv.1 hμne
      rw [hpop] at hrun
      simp only [] at hrun
      by_cases hd : k = dist.getD v 0
      · rw [if_pos hd] at hrun
        obtain ⟨hinv2, _⟩ := loopInv_process PL hwf hS hinv hW' hμ hd
          ((g.getD v []).foldl (relaxStep Q k) (q', dist)).1
          ((g.getD v []).foldl (relaxStep Q k) (q', dist)).2 (by rw [Prod.mk.eta])
        exact ih _ _ r qf hinv2 hrun
      · rw [if_neg hd] at hrun
        exact ih _ _ r qf (loopInv_stale PL hinv hW' hμ hd) hrun

theorem ssspLoop_complete {σ : Type} {Q : PQ σ} (PL : PQLaws Q) {g : Graph}
    {s : ℕ} (hwf : WFGraph g) (hS : (g.length + 1) * totalWeight g < INF) :
    ∀ (fuel : ℕ) (q : σ) (dist : List ℕ),
      LoopInv PL g s q dist →
      dist.sum + Multiset.card (PL.μ q) < fuel →
      ∃ r qf, ssspLoop Q g fuel q dist = some (r, qf) := by
  intro fuel
  induction fuel with
  | zero =>
    intro q dist _ hΦ
    omega
  | succ fuel ih =>
    intro q dist hinv hΦ
    rw [ssspLoop]
    by_cases hq : Q.isEmpty q = true
    · rw [if_pos hq]
      exact ⟨dist, q, rfl⟩
    · rw [if_neg hq]
      have hμne : PL.μ q ≠ 0 := by
        intro hx
        exact hq ((PL.isEmpty_iff q hinv.1).mpr hx)
      obtain ⟨k, v, q', hpop, hW', hμ⟩ := PL.pop_spec q hinv.1 hμne
      rw [hpop]
      simp only []
      have hcard : Multiset.card (PL.μ q) = Multiset.card (PL.μ q') + 1 := by
        rw [hμ]
        simp
      by_cases hd : k = dist.getD v 0
      · rw [if_pos hd]
        obtain ⟨hinv2, hΦ2⟩ := loopInv_process PL hwf hS hinv hW' hμ hd
          ((g.getD v []).foldl (relaxStep Q k) (q', dist)).1
          ((g.getD v []).foldl (relaxStep Q k) (q', dist)).2 (by rw [Prod.mk.eta])
        exact ih _ _ hinv2 (by omega)
      · rw [if_neg hd]
        exact ih _ _ (loopInv_stale PL hinv hW' hμ hd) (by omega)

theorem getD_replicate_self {n v x : ℕ} (hv : v < n) :
    (List.replicate n (x : ℕ)).getD v 0 = x := by
  rw [List.getD_eq_getElem _ _ (by simpa using hv), List.getElem_replicate]

theorem initDist_getD {g : Graph} {s v : ℕ} (hs : s < g.length)
    (hv : v < g.length) :
    (initDist g s).getD v 0 = if v = s then 0 else INF := by
  unfold initDist
  by_cases hvs : v = s
  · subst hvs
    rw [if_pos rfl]
    exact getD_set_self _ _ _ _ (by simpa using hs)
  · rw [if_neg hvs, getD_set_ne _ _ _ (fun hx => hvs hx.symm)]
    exact getD_replicate_self hv

/-- The loop invariant holds at entry: `dist` is `INF` away from the source
and the queue holds exactly `(0, source)`. -/
theorem loopInv_init {σ : Type} {Q : PQ σ} (PL : PQLaws Q) {g : Graph}
    {s : ℕ} {q0 : σ} (hs : s < g.length)
    (hW0 : PL.W q0) (hμ0 : PL.μ q0 = {(0, s)}) :
    LoopInv PL g s q0 (initDist g s) := by
  have hINF0 : (0 : ℕ) ≠ INF := by
    unfold INF M64
    norm_num
  refine ⟨hW0, by simp [initDist], ?_, ?_, ?_, ?_⟩
  · rw [initDist_getD hs hs, if_pos rfl]
  · intro kv hkv
    rw [hμ0] at hkv
    rw [Multiset.mem_singleton.mp hkv]
    constructor
    · show 0 < INF
      unfold INF M64
      norm_num
    · exact hs
  · intro v hv
    rw [initDist_getD hs hv]
    by_cases hvs : v = s
    · rw [if_pos hvs]
      right
      subst hvs
      exact ⟨Walk.nil, by omega⟩
    · rw [if_neg hvs]
      left
      rfl
  · intro u hu hne
    rw [initDist_getD hs hu] at hne ⊢
    by_cases hus : u = s
    · subst hus
      rw [if_pos rfl] at hne ⊢
      left
      rw [hμ0]
      exact Multiset.mem_singleton.mpr rfl
    · rw [if_neg hus] at hne
      exact absurd rfl hne

theorem binPQ_init_inv {g : Graph} {s : ℕ} (hs : s < g.length) :
    LoopInv binLaws g s (binPQ.push 0 s []) (initDist g s) := by
  apply loopInv_init binLaws hs trivial
  rfl

theorem radixPQ_init_inv {g : Graph} {s : ℕ} (hs : s < g.length) :
    LoopInv radixLaws g s (radixPQ.push 0 s RadixHeap.init) (initDist g s) := by
  obtain ⟨hw, hperm⟩ := radix_init_push_flatten s
  apply loopInv_init radixLaws hs hw
  show ((RadixHeap.init.push 0 s).buckets.flatten : Multiset (ℕ × ℕ)) = {(0, s)}
  rw [Multiset.coe_eq_coe.mpr hperm]
  rfl

theorem dijkstra_sound {g : Graph} {s : ℕ} (hwf : WFGraph g) (hs : s < g.length)
    (hS : (g.length + 1) * totalWeight g < INF) :
    ∀ fuel r, dijkstra g s fuel = some r → FinalDist g s r := by
  intro fuel r hrun
  unfold dijkstra at hrun
  rcases hx : ssspLoop binPQ g fuel (binPQ.push 0 s []) (initDist g s) with _ | p
  · rw [hx] at hrun
    exact absurd hrun (by simp)
  · rw [hx] at hrun
    simp only [Option.map_some'] at hrun
    injection hrun with h1
    subst h1
    exact ssspLoop_sound binLaws hwf hS fuel _ _ p.1 p.2 (binPQ_init_inv hs)
      (by rw [hx])

theorem dijkstra_complete {g : Graph} {s : ℕ} (hwf : WFGraph g)
    (hs : s < g.length) (hS : (g.length + 1) * totalWeight g < INF) :
    ∃ fuel r, dijkstra g s fuel = some r := by
  obtain ⟨r, qf, hrun⟩ := ssspLoop_complete binLaws hwf hS
    ((initDist g s).sum + 2) (binPQ.push 0 s []) (initDist g s)
    (binPQ_init_inv hs) (by
      show (initDist g s).sum + Multiset.card (((0, s) :: [] : List (ℕ × ℕ)) :
        Multiset (ℕ × ℕ)) < (initDist g s).sum + 2
      simp)
  exact ⟨(initDist g s).sum + 2, r, by
    unfold dijkstra
    rw [hrun]
    rfl⟩

theorem bssp_sound {g : Graph} {s : ℕ} (hwf : WFGraph g) (hs : s < g.length)
    (hS : (g.length + 1) * totalWeight g < INF) :
    ∀ fuel r, breaking_sorting_barrier_sssp g s fuel = some r →
      FinalDist g s r := by
  intro fuel r hrun
  unfold breaking_sorting_barrier_sssp at hrun
  rcases hx : ssspLoop radixPQ g fuel (radixPQ.push 0 s RadixHeap.init)
      (initDist g s) with _ | p
  · rw [hx] at hrun
    exact absurd hrun (by simp)
  · rw [hx] at hrun
    simp only [Option.map_some'] at hrun
    injection hrun with h1
    subst h1
    exact ssspLoop_sound radixLaws hwf hS fuel _ _ p.1 p.2 (radixPQ_init_inv hs)
      (by rw [hx])

theorem bssp_complete {g : Graph} {s : ℕ} (hwf : WFGraph g)
    (hs : s < g.length) (hS : (g.length + 1) * totalWeight g < INF) :
    ∃ fuel r, breaking_sorting_barrier_sssp g s fuel = some r := by
  have hμ : radixLaws.μ (radixPQ.push 0 s RadixHeap.init) = {(0, s)} := by
    obtain ⟨hw, hperm⟩ := radix_init_push_flatten s
    show ((RadixHeap.init.push 0 s).buckets.flatten : Multiset (ℕ × ℕ)) = {(0, s)}
    rw [Multiset.coe_eq_coe.mpr hperm]
    rfl
  obtain ⟨r, qf, hrun⟩ := ssspLoop_complete radixLaws hwf hS
    ((initDist g s).sum + 2) (radixPQ.push 0 s RadixHeap.init) (initDist g s)
    (radixPQ_init_inv hs) (by
      rw [hμ]
      simp)
  exact ⟨(initDist g s).sum + 2, r, by
    unfold breaking_sorting_barrier_sssp
    rw [hrun]
    rfl⟩

instance (g : Graph) : Decidable (WFGraph g) := by
  unfold WFGraph
  infer_instance

instance (h : RadixHeap) : Decidable (BucketInv h) := by
  unfold BucketInv
  infer_instance

instance (h : RadixHeap) : Decidable (RadixWF h) := by
  unfold RadixWF
  infer_instance

/-! ## Concrete graphs used by the claims -/

/-- Scenario A: edges `(0,1,4), (0,2,1), (2,1,2), (1,3,1)`. -/
def gA : Graph := [[⟨1, 4⟩, ⟨2, 1⟩], [⟨3, 1⟩], [⟨1, 2⟩], []]

/-- An overflow graph: `0→1` and `1→3` weigh `2^63`, so node 3 is reached
at wrapped distance 0; the detour `1→2→4` then relaxes `2→4` with a stale
large distance in one pop order but not the other. -/
def gOverflow : Graph :=
  [[⟨1, 2 ^ 63⟩], [⟨2, 1⟩, ⟨3, 2 ^ 63⟩], [⟨4, 2 ^ 63 - 1⟩], [⟨2, 0⟩], []]

/-- Scenario D: zero-weight chain `(0,1,0), (1,2,0)`. -/
def gZero : Graph := [[⟨1, 0⟩], [⟨2, 0⟩], []]

/-- C1 counterexample: with unrestricted 64-bit weights the two algorithms
can disagree.  On `gOverflow` from source 0, wraparound in `nd = d + w`
makes the binary-heap run report distance `2^63 - 1` for node 4 while the
radix-heap run reports 0. -/
theorem C1_counterexample :
    dijkstra gOverflow 0 20 = some [0, 2 ^ 63, 0, 0, 2 ^ 63 - 1] ∧
    breaking_sorting_barrier_sssp gOverflow 0 20 = some [0, 2 ^ 63, 0, 0, 0] ∧
    ([0, 2 ^ 63, 0, 0, 2 ^ 63 - 1] : List ℕ) ≠ [0, 2 ^ 63, 0, 0, 0] := by
  refine ⟨by decide, by decide, by decide⟩

/-- C1 (amended): for every well-formed graph whose total edge weight is
small enough that no relaxation can overflow 64 bits or reach the INF
sentinel (`(N + 1) * Σw < 2^64 - 1`), and every valid source, both
algorithms terminate and return element-wise identical distance vectors. -/
theorem C1_equivalence (g : Graph) (s : ℕ) (hwf : WFGraph g)
    (hs : s < g.length) (hS : (g.length + 1) * totalWeight g < INF) :
    ∃ r : List ℕ, (∃ fuel, dijkstra g s fuel = some r) ∧
      (∃ fuel, breaking_sorting_barrier_sssp g s fuel = some r) ∧
      ∀ f1 f2 r1 r2, dijkstra g s f1 = some r1 →
        breaking_sorting_barrier_sssp g s f2 = some r2 → r1 = r2 := by
  obtain ⟨fd, rd, hrd⟩ := dijkstra_complete hwf hs hS
  obtain ⟨fb, rb, hrb⟩ := bssp_complete hwf hs hS
  have hequal : ∀ f1 f2 r1 r2, dijkstra g s f1 = some r1 →
      breaking_sorting_barrier_sssp g s f2 = some r2 → r1 = r2 := by
    intro f1 f2 r1 r2 h1 h2
    exact finalDist_unique hwf hs hS (dijkstra_sound hwf hs hS f1 r1 h1)
      (bssp_sound hwf hs hS f2 r2 h2)
  refine ⟨rd, ⟨fd, hrd⟩, ⟨fb, ?_⟩, hequal⟩
  rw [hrb, hequal fd fb rd rb hrd hrb]

/-- C1 witness: the amended equivalence applied to the concrete
scenario-A graph from source 0. -/
theorem C1_equivalence_witness :
    WFGraph gA ∧ 0 < gA.length ∧ (gA.length + 1) * totalWeight gA < INF ∧
    ∃ r : List ℕ, (∃ fuel, dijkstra gA 0 fuel = some r) ∧
      (∃ fuel, breaking_sorting_barrier_sssp gA 0 fuel = some r) ∧
      ∀ f1 f2 r1 r2, dijkstra gA 0 f1 = some r1 →
        breaking_sorting_barrier_sssp gA 0 f2 = some r2 → r1 = r2 :=
  ⟨by decide, by decide, by decide,
    C1_equivalence gA 0 (by decide) (by decide) (by decide)⟩

/-- C7: on the scenario-A graph with source 0, both `dijkstra` and
`breaking_sorting_barrier_sssp` return the distance vector `[0, 3, 1, 4]`. -/
theorem C7_scenarioA :
    dijkstra gA 0 20 = some [0, 3, 1, 4] ∧
    breaking_sorting_barrier_sssp gA 0 20 = some [0, 3, 1, 4] :=
  ⟨by decide, by decide⟩

/-! ## Ghost monitors over a queue -/

/-- A queue together with a ghost Boolean observer: `op` observes each
push (with the queue state at call time), `oq` observes each pop.  The
underlying queue behaviour is unchanged. -/
def attachPQ {σ : Type} (Q : PQ σ) (op : σ → ℕ → ℕ → Bool → Bool)
    (oq : σ → Bool → Bool) : PQ (σ × Bool) where
  isEmpty q := Q.isEmpty q.1
  pop q := (Q.pop q.1).map (fun p => (p.1, (p.2, oq q.1 q.2)))
  push k v q := (Q.push k v q.1, op q.1 k v q.2)

/-- The monitored queue obeys the same laws, ignoring the ghost flag. -/
def attachLaws {σ : Type} {Q : PQ σ} (PL : PQLaws Q)
    (op : σ → ℕ → ℕ → Bool → Bool) (oq : σ → Bool → Bool) :
    PQLaws (attachPQ Q op oq) where
  μ q := PL.μ q.1
  W q := PL.W q.1
  isEmpty_iff q hw := PL.isEmpty_iff q.1 hw
  pop_spec q hw hne := by
    obtain ⟨k, v, q', hpop, hW', hμ⟩ := PL.pop_spec q.1 hw hne
    refine ⟨k, v, (q', oq q.1 q.2), ?_, hW', hμ⟩
    show (Q.pop q.1).map _ = _
    rw [hpop]
    rfl
  push_spec q k v hw hk := PL.push_spec q.1 k v hw hk

theorem relaxFold_attach {σ : Type} (Q : PQ σ) (op : σ → ℕ → ℕ → Bool → Bool)
    (oq : σ → Bool → Bool) (d : ℕ) :
    ∀ (es : List Edge) (q : σ) (b : Bool) (dist : List ℕ),
      ∃ b', es.foldl (relaxStep (attachPQ Q op oq) d) ((q, b), dist) =
        (((es.foldl (relaxStep Q d) (q, dist)).1, b'),
          (es.foldl (relaxStep Q d) (q, dist)).2) := by
  intro es
  induction es with
  | nil =>
    intro q b dist
    exact ⟨b, rfl⟩
  | cons e rest ih =>
    intro q b dist
    rw [List.foldl_cons, List.foldl_cons]
    simp only [relaxStep]
    by_cases hlt : (d + e.weight) % M64 < dist.getD e.dst 0
    · rw [if_pos hlt, if_pos hlt]
      exact ih _ _ _
    · rw [if_neg hlt, if_neg hlt]
      exact ih _ _ _

/-- Running the loop with a monitored queue computes the same distances and
the same underlying queue states as the unmonitored loop. -/
theorem ssspLoop_attach {σ : Type} (Q : PQ σ) (op : σ → ℕ → ℕ → Bool → Bool)
    (oq : σ → Bool → Bool) (g : Graph) :
    ∀ (fuel : ℕ) (q : σ) (b : Bool) (dist : List ℕ),
      (ssspLoop (attachPQ Q op oq) g fuel (q, b) dist).map
          (fun p => (p.1, p.2.1)) =
        ssspLoop Q g fuel q dist := by
  intro fuel
  induction fuel with
  | zero =>
    intro q b dist
    rw [ssspLoop, ssspLoop]
    by_cases hq : Q.isEmpty q = true
    · rw [if_pos hq, if_pos (show (attachPQ Q op oq).isEmpty (q, b) = true from hq)]
      rfl
    · rw [if_neg hq, if_neg (show ¬((attachPQ Q op oq).isEmpty (q, b) = true) from hq)]
      rfl
  | succ fuel ih =>
    intro q b dist
    rw [ssspLoop, ssspLoop]
    by_cases hq : Q.isEmpty q = true
    · rw [if_pos hq, if_pos (show (attachPQ Q op oq).isEmpty (q, b) = true from hq)]
      rfl
    · rw [if_neg hq, if_neg (show ¬((attachPQ Q op oq).isEmpty (q, b) = true) from hq)]
      rcases hpop : Q.pop q with _ | p
      · have hpop' : (attachPQ Q op oq).pop (q, b) = none := by
          show (Q.pop q).map _ = none
          rw [hpop]
          rfl
        rw [hpop']
        rfl
      · obtain ⟨⟨k, v⟩, q'⟩ := p
        have hpop' : (attachPQ Q op oq).pop (q, b) = some ((k, v), (q', oq q b)) := by
          show (Q.pop q).map _ = _
          rw [hpop]
          rfl
        rw [hpop']
        simp only []
        by_cases hd : k = dist.getD v 0
        · rw [if_pos hd, if_pos hd]
          obtain ⟨b', hfold⟩ := relaxFold_attach Q op oq k (g.getD v [])
            q' (oq q b) dist
          rw [hfold]
          exact ih _ _ _
        · rw [if_neg hd, if_neg hd]
          exact ih _ _ _

/-- The radix-heap queue instrumented with the monotonicity monitor: the
ghost flag stays true only while every pushed key is `≥ last` at the time
of the call. -/
def radixPQM : PQ (RadixHeap × Bool) :=
  attachPQ radixPQ (fun h k _ b => b && decide (h.last ≤ k)) (fun _ b => b)

/-- Queue laws for the monotonicity-monitored radix heap. -/
def radixLawsM : PQLaws radixPQM :=
  attachLaws radixLaws (fun h k _ b => b && decide (h.last ≤ k)) (fun _ b => b)

/-- `breaking_sorting_barrier_sssp` run with the monotonicity monitor. -/
def bssp_monitored (g : Graph) (source fuel : ℕ) :
    Option (List ℕ × (RadixHeap × Bool)) :=
  ssspLoop radixPQM g fuel (radixPQM.push 0 source (RadixHeap.init, true))
    (initDist g source)

theorem relaxFold_flagM {g : Graph} {s u d : ℕ} (hwf : WFGraph g)
    (hS : (g.length + 1) * totalWeight g < INF) (hu : u < g.length)
    (hdINF : d ≠ INF) :
    ∀ (es : List Edge) (q : RadixHeap) (dist : List ℕ),
      (∀ e ∈ es, e ∈ g.getD u []) → RBase radixLaws g s u d q dist →
      q.last = d →
      ∀ qb2 dist2, es.foldl (relaxStep radixPQM d) ((q, true), dist) = (qb2, dist2) →
        qb2.2 = true ∧ qb2.1.last = d := by
  intro es
  induction es with
  | nil =>
    intro q dist _ _ hlast qb2 dist2 heq
    rw [List.foldl_nil] at heq
    injection heq with h1 h2
    subst h1
    exact ⟨rfl, hlast⟩
  | cons e rest ih =>
    intro q dist hes hb hlast qb2 dist2 heq
    rw [List.foldl_cons] at heq
    -- the underlying single step and its specification
    have hstep := relax_step_spec radixLaws hwf hS hu hdINF
      (hes e (List.mem_cons_self e rest)) hb
      (relaxStep radixPQ d (q, dist) e).1 (relaxStep radixPQ d (q, dist) e).2
      (by rw [Prod.mk.eta])
    obtain ⟨hb1, _, _, _, _⟩ := hstep
    -- the exactness facts needed to evaluate the monitor
    obtain ⟨hW, hlen, hsrc, hkeys, hL2, hL4, hdu⟩ := hb
    have hwS : e.weight ≤ totalWeight g :=
      weight_le_total hu (hes e (List.mem_cons_self e rest))
    have hcle : countInf dist ≤ g.length := by
      have := countInf_le_length dist
      omega
    have hdbound : d ≤ (g.length - countInf dist) * totalWeight g := by
      rcases hL2 u hu with hx | ⟨hx1, hx2⟩
      · rw [hdu] at hx
        exact absurd hx hdINF
      · rw [hdu] at hx2
        exact hx2
    have hmono : (g.length - countInf dist) * totalWeight g ≤
        g.length * totalWeight g := mul_le_mul_right' (by omega) _
    have hsplitS : (g.length + 1) * totalWeight g =
        g.length * totalWeight g + totalWeight g := by ring
    have hINFM : INF < M64 := by
      unfold INF M64
      norm_num
    have hex : d + e.weight < M64 := by omega
    have hnd : (d + e.weight) % M64 = d + e.weight := Nat.mod_eq_of_lt hex
    -- evaluate one monitored step
    by_cases hlt : (d + e.weight) % M64 < dist.getD e.dst 0
    · have hstepM : relaxStep radixPQM d ((q, true), dist) e =
          ((q.push ((d + e.weight) % M64) e.dst,
            true && decide (q.last ≤ (d + e.weight) % M64)),
            dist.set e.dst ((d + e.weight) % M64)) := by
        simp only [relaxStep, if_pos hlt]
        rfl
      have hflag : (true && decide (q.last ≤ (d + e.weight) % M64)) = true := by
        rw [hnd, hlast]
        simp only [Bool.true_and, decide_eq_true_eq]
        omega
      rw [hstepM, hflag] at heq
      have hstepQ : relaxStep radixPQ d (q, dist) e =
          (q.push ((d + e.weight) % M64) e.dst,
            dist.set e.dst ((d + e.weight) % M64)) := by
        simp only [relaxStep, if_pos hlt]
        rfl
      rw [hstepQ] at hb1
      have hlast1 : (q.push ((d + e.weight) % M64) e.dst).last = d := hlast
      exact ih _ _ (fun e' he' => hes e' (List.mem_cons_of_mem e he')) hb1 hlast1
        qb2 dist2 heq
    · have hstepM : relaxStep radixPQM d ((q, true), dist) e = ((q, true), dist) := by
        simp only [relaxStep, if_neg hlt]
      have hstepQ : relaxStep radixPQ d (q, dist) e = (q, dist) := by
        simp only [relaxStep, if_neg hlt]
      rw [hstepM] at heq
      rw [hstepQ] at hb1
      exact ih _ _ (fun e' he' => hes e' (List.mem_cons_of_mem e he')) hb1 hlast
        qb2 dist2 heq

theorem ssspLoopM_flag {g : Graph} {s : ℕ} (hwf : WFGraph g)
    (hS : (g.length + 1) * totalWeight g < INF) :
    ∀ (fuel : ℕ) (q : RadixHeap) (dist : List ℕ) (r : List ℕ)
      (qf : RadixHeap) (bf : Bool),
      LoopInv radixLawsM g s (q, true) dist →
      ssspLoop radixPQM g fuel (q, true) dist = some (r, (qf, bf)) →
      bf = true := by
  intro fuel
  induction fuel with
  | zero =>
    intro q dist r qf bf hinv hrun
    rw [ssspLoop] at hrun
    by_cases hq : radixPQM.isEmpty (q, true) = true
    · rw [if_pos hq] at hrun
      injection hrun with h1
      injection h1 with h2 h3
      injection h3 with h4 h5
      exact h5.symm
    · rw [if_neg hq] at hrun
      exact absurd hrun (by simp)
  | succ fuel ih =>
    intro q dist r qf bf hinv hrun
    rw [ssspLoop] at hrun
    by_cases hq : radixPQM.isEmpty (q, true) = true
    · rw [if_pos hq] at hrun
      injection hrun with h1
      injection h1 with h2 h3
      injection h3 with h4 h5
      exact h5.symm
    · rw [if_neg hq] at hrun
      have hμne : radixLawsM.μ (q, true) ≠ 0 := by
        intro hx
        exact hq ((radixLawsM.isEmpty_iff (q, true) hinv.1).mpr hx)
      have hne' : q.buckets.flatten ≠ [] := by
        intro hx
        apply hμne
        show (q.buckets.flatten : Multiset (ℕ × ℕ)) = 0
        rw [Multiset.coe_eq_zero]
        exact hx
      obtain ⟨k, v, q', hpop, hW', hperm, hsz', hlast'⟩ :=
        radix_pop_spec hinv.1 hne'
      have hpopM : radixPQM.pop (q, true) = some ((k, v), (q', true)) := by
        show (radixPQ.pop q).map _ = _
        show (RadixHeap.pop q).map _ = _
        rw [hpop]
        rfl
      rw [hpopM] at hrun
      simp only [] at hrun
      have hμ : radixLawsM.μ (q, true) = (k, v) ::ₘ radixLawsM.μ (q', true) := by
        show (q.buckets.flatten : Multiset (ℕ × ℕ)) =
          (k, v) ::ₘ (q'.buckets.flatten : Multiset (ℕ × ℕ))
        rw [Multiset.coe_eq_coe.mpr hperm]
        rfl
      have hWM : radixLawsM.W (q', true) := hW'
      by_cases hd : k = dist.getD v 0
      · rw [if_pos hd] at hrun
        obtain ⟨hbaseM, hkINF, hv⟩ := loopInv_pop_base radixLawsM hinv hWM hμ hd
        have hbaseQ : RBase radixLaws g s v k q' dist := hbaseM
        obtain ⟨hflag, hlastf⟩ := relaxFold_flagM hwf hS hv hkINF (g.getD v [])
          q' dist (fun e he => he) hbaseQ hlast'
          ((g.getD v []).foldl (relaxStep radixPQM k) ((q', true), dist)).1
          ((g.getD v []).foldl (relaxStep radixPQM k) ((q', true), dist)).2
          (by rw [Prod.mk.eta])
        obtain ⟨hinv2, _⟩ := loopInv_process radixLawsM hwf hS hinv hWM hμ hd
          ((g.getD v []).foldl (relaxStep radixPQM k) ((q', true), dist)).1
          ((g.getD v []).foldl (relaxStep radixPQM k) ((q', true), dist)).2
          (by rw [Prod.mk.eta])
        set p := (g.getD v []).foldl (relaxStep radixPQM k) ((q', true), dist)
          with hp
        have hpair : p.1 = (p.1.1, true) := by
          rw [← hflag]
        rw [hpair] at hinv2 hrun
        exact ih p.1.1 p.2 r qf bf hinv2 hrun
      · rw [if_neg hd] at hrun
        exact ih q' dist r qf bf (loopInv_stale radixLawsM hinv hWM hμ hd) hrun

/-- Overflow graph for the monotonicity claim: the chain `0→1→2` with both
weights `2^63` wraps the distance of node 2 to 0. -/
def gC3 : Graph := [[⟨1, 2 ^ 63⟩], [⟨2, 2 ^ 63⟩], []]

/-- C3 counterexample: on `gC3` (non-negative 64-bit weights) the run of
`breaking_sorting_barrier_sssp` pushes key 0 while `last = 2^63`, so the
monotonicity monitor ends false: not every pushed key is `≥ last`. -/
theorem C3_counterexample :
    (bssp_monitored gC3 0 10).map (fun p => p.2.2) = some false ∧
    (bssp_monitored gC3 0 10).map Prod.fst = some [0, 2 ^ 63, 0] ∧
    breaking_sorting_barrier_sssp gC3 0 10 = some [0, 2 ^ 63, 0] :=
  ⟨by decide, by decide, by decide⟩

/-- C3 (amended): in runs of `breaking_sorting_barrier_sssp` on graphs
whose total weight is too small for `nd = d + w` to overflow
(`(N + 1) * Σw < 2^64 - 1`), every key passed to `RadixHeap::push` is `≥`
the heap's watermark `last` at the time of the call.  The first conjunct
says the monitored run is the real run (the monitor only observes); the
second that the monitor flag stays true. -/
theorem C3_monotone_pushes (g : Graph) (s : ℕ) (hwf : WFGraph g)
    (hs : s < g.length) (hS : (g.length + 1) * totalWeight g < INF) :
    (∀ fuel, (bssp_monitored g s fuel).map Prod.fst =
      breaking_sorting_barrier_sssp g s fuel) ∧
    (∀ fuel r qf bf, bssp_monitored g s fuel = some (r, (qf, bf)) →
      bf = true) := by
  constructor
  · intro fuel
    show (ssspLoop radixPQM g fuel (radixPQ.push 0 s RadixHeap.init, true)
        (initDist g s)).map Prod.fst = _
    have herase := ssspLoop_attach radixPQ
      (fun h k _ b => b && decide (h.last ≤ k)) (fun _ b => b) g fuel
      (radixPQ.push 0 s RadixHeap.init) true (initDist g s)
    unfold breaking_sorting_barrier_sssp
    rw [← herase, Option.map_map]
    rfl
  · intro fuel r qf bf hrun
    have hrun' : ssspLoop radixPQM g fuel (radixPQ.push 0 s RadixHeap.init, true)
        (initDist g s) = some (r, (qf, bf)) := hrun
    have hinv0 : LoopInv radixLawsM g s (radixPQ.push 0 s RadixHeap.init, true)
        (initDist g s) := by
      obtain ⟨hw, hperm⟩ := radix_init_push_flatten s
      have hwM : radixLawsM.W (radixPQ.push 0 s RadixHeap.init, true) := hw
      apply loopInv_init radixLawsM hs hwM
      show ((RadixHeap.init.push 0 s).buckets.flatten : Multiset (ℕ × ℕ)) = {(0, s)}
      rw [Multiset.coe_eq_coe.mpr hperm]
      rfl
    exact ssspLoopM_flag hwf hS fuel _ _ r qf bf hinv0 hrun'

/-- C3 witness: the amended monotonicity statement applied to the
scenario-A graph from source 0. -/
theorem C3_monotone_pushes_witness :
    WFGraph gA ∧ 0 < gA.length ∧ (gA.length + 1) * totalWeight gA < INF ∧
    ((∀ fuel, (bssp_monitored gA 0 fuel).map Prod.fst =
      breaking_sorting_barrier_sssp gA 0 fuel) ∧
    (∀ fuel r qf bf, bssp_monitored gA 0 fuel = some (r, (qf, bf)) →
      bf = true)) :=
  ⟨by decide, by decide, by decide,
    C3_monotone_pushes gA 0 (by decide) (by decide) (by decide)⟩

/-- The radix-heap queue instrumented to record whether `relocate` was
ever invoked (bucket 0 empty at a pop). -/
def radixPQR : PQ (RadixHeap × Bool) :=
  attachPQ radixPQ (fun _ _ _ b => b) (fun h b => b || (h.buckets.getD 0 []).isEmpty)

/-- `breaking_sorting_barrier_sssp` run with the relocate monitor. -/
def bssp_reloc_monitored (g : Graph) (source fuel : ℕ) :
    Option (List ℕ × (RadixHeap × Bool)) :=
  ssspLoop radixPQR g fuel (radixPQR.push 0 source (RadixHeap.init, false))
    (initDist g source)

/-- The radix-heap queue instrumented to check that every pushed key
equals the watermark `last` at the time of the call. -/
def radixPQE : PQ (RadixHeap × Bool) :=
  attachPQ radixPQ (fun h k _ b => b && decide (k = h.last)) (fun _ b => b)

/-- C8: on the zero-weight chain `(0,1,0), (1,2,0)` from source 0,
`breaking_sorting_barrier_sssp` returns `[0, 0, 0]`; the relocate monitor
stays false (every pop found bucket 0 non-empty, so `relocate` was never
invoked), the monitored run is the real run, and every pushed key equals
the watermark `last` (zero XOR-difference, bucket 0). -/
theorem C8_zero_weight_no_relocate :
    breaking_sorting_barrier_sssp gZero 0 10 = some [0, 0, 0] ∧
    (bssp_reloc_monitored gZero 0 10).map (fun p => (p.1, p.2.2)) =
      some ([0, 0, 0], false) ∧
    (∀ fuel, (bssp_reloc_monitored gZero 0 fuel).map Prod.fst =
      breaking_sorting_barrier_sssp gZero 0 fuel) ∧
    (ssspLoop radixPQE gZero 10 (radixPQE.push 0 0 (RadixHeap.init, true))
      (initDist gZero 0)).map (fun p => p.2.2) = some true := by
  refine ⟨by decide, by decide, ?_, by decide⟩
  intro fuel
  show (ssspLoop radixPQR gZero fuel (radixPQ.push 0 0 RadixHeap.init, false)
      (initDist gZero 0)).map Prod.fst = _
  have herase := ssspLoop_attach radixPQ (fun _ _ _ b => b)
    (fun h b => b || (h.buckets.getD 0 []).isEmpty) gZero fuel
    (radixPQ.push 0 0 RadixHeap.init) false (initDist gZero 0)
  unfold breaking_sorting_barrier_sssp
  rw [← herase, Option.map_map]
  rfl

/-- Pop the heap repeatedly, collecting the keys that come out. -/
def popKeys : ℕ → RadixHeap → List ℕ
  | 0, _ => []
  | f + 1, h =>
    match h.pop with
    | none => []
    | some ((k, _), h') => k :: popKeys f h'

set_option maxRecDepth 4000 in
set_option maxHeartbeats 1000000 in
/-- C4: pushing keys 5, 5, 9, 100 for four distinct values into a fresh
radix heap and popping four times yields the keys in the non-decreasing
order 5, 5, 9, 100, whatever the values are. -/
theorem C4_pop_order (v1 v2 v3 v4 : ℕ)
    (_hdist : v1 ≠ v2 ∧ v1 ≠ v3 ∧ v1 ≠ v4 ∧ v2 ≠ v3 ∧ v2 ≠ v4 ∧ v3 ≠ v4) :
    popKeys 4 ((((RadixHeap.init.push 5 v1).push 5 v2).push 9 v3).push 100 v4) =
      [5, 5, 9, 100] ∧ (5 ≤ 5 ∧ 5 ≤ 9 ∧ 9 ≤ 100) := by
  constructor
  · simp [popKeys, RadixHeap.init, RadixHeap.push, RadixHeap.pop,
      RadixHeap.relocate, RadixHeap.scan, bucket_index, bitlen]
  · decide

/-- C4 witness: the pop-order theorem at the concrete values 1, 2, 3, 4. -/
theorem C4_pop_order_witness :
    ((1 : ℕ) ≠ 2 ∧ (1 : ℕ) ≠ 3 ∧ (1 : ℕ) ≠ 4 ∧ (2 : ℕ) ≠ 3 ∧ (2 : ℕ) ≠ 4 ∧
      (3 : ℕ) ≠ 4) ∧
    (popKeys 4 ((((RadixHeap.init.push 5 1).push 5 2).push 9 3).push 100 4) =
      [5, 5, 9, 100] ∧ (5 ≤ 5 ∧ 5 ≤ 9 ∧ 9 ≤ 100)) :=
  ⟨by decide, C4_pop_order 1 2 3 4 (by decide)⟩

/-! ## The cross-check harness -/

theorem verifyLoop_spec :
    ∀ (as bs : List ℕ) (i : ℕ), as.length = bs.length →
      (verifyLoop i as bs = Except.ok () ↔ as = bs) ∧
      (∀ j x y, verifyLoop i as bs = Except.error (VerifyError.mismatch j x y) →
        i ≤ j ∧ j - i < as.length ∧ as.getD (j - i) 0 = x ∧ bs.getD (j - i) 0 = y ∧
        x ≠ y ∧ ∀ m, m < j - i → as.getD m 0 = bs.getD m 0) := by
  intro as
  induction as with
  | nil =>
    intro bs i hlen
    cases bs with
    | nil =>
      refine ⟨by simp [verifyLoop], ?_⟩
      intro j x y hx
      exact absurd hx (by simp [verifyLoop])
    | cons b bs => simp at hlen
  | cons a as ih =>
    intro bs i hlen
    cases bs with
    | nil => simp at hlen
    | cons b bs =>
      have hlen' : as.length = bs.length := by simpa using hlen
      obtain ⟨ih1, ih2⟩ := ih bs (i + 1) hlen'
      by_cases hab : a = b
      · have hstep : verifyLoop i (a :: as) (b :: bs) = verifyLoop (i + 1) as bs := by
          rw [verifyLoop, if_neg (by simpa using hab)]
        constructor
        · rw [hstep, ih1]
          constructor
          · intro hx
            rw [hab, hx]
          · intro hx
            injection hx with h1 h2
        · intro j x y hx
          rw [hstep] at hx
          obtain ⟨h1, h2, h3, h4, h5, h6⟩ := ih2 j x y hx
          have hji : j - i = (j - (i + 1)) + 1 := by omega
          refine ⟨by omega, by simpa [hji] using h2, ?_, ?_, h5, ?_⟩
          · rwa [hji, List.getD_cons_succ]
          · rwa [hji, List.getD_cons_succ]
          · intro m hm
            cases m with
            | zero => simpa using hab
            | succ m' =>
              rw [List.getD_cons_succ, List.getD_cons_succ]
              exact h6 m' (by omega)
      · have hstep : verifyLoop i (a :: as) (b :: bs) =
            Except.error (VerifyError.mismatch i a b) := by
          rw [verifyLoop, if_pos (by simpa using hab)]
        constructor
        · rw [hstep]
          constructor
          · intro hx
            exact absurd hx (by simp)
          · intro hx
            injection hx with h1 h2
            exact absurd h1 hab
        · intro j x y hx
          rw [hstep] at hx
          injection hx with h1
          injection h1 with h2 h3 h4
          subst h2
          subst h3
          subst h4
          refine ⟨le_refl _, by simp, by simp, by simp, hab, ?_⟩
          intro m hm
          omega

/-- C5: `verify_results` returns normally iff the two vectors are equal
(same length, same entries); a size mismatch throws the size error; a
value mismatch reports the first offending index with both values. -/
theorem C5_verify_results (a b : List ℕ) :
    (verify_results a b = Except.ok () ↔ a = b) ∧
    (a.length ≠ b.length →
      verify_results a b = Except.error VerifyError.size_mismatch) ∧
    (∀ i x y, verify_results a b = Except.error (VerifyError.mismatch i x y) →
      i < a.length ∧ i < b.length ∧ a.getD i 0 = x ∧ b.getD i 0 = y ∧ x ≠ y ∧
      ∀ m, m < i → a.getD m 0 = b.getD m 0) := by
  by_cases hlen : a.length = b.length
  · obtain ⟨h1, h2⟩ := verifyLoop_spec a b 0 hlen
    have hv : verify_results a b = verifyLoop 0 a b := by
      rw [verify_results, if_neg (by omega)]
    refine ⟨by rw [hv]; exact h1, fun hx => absurd hlen hx, ?_⟩
    intro i x y hx
    rw [hv] at hx
    obtain ⟨g1, g2, g3, g4, g5, g6⟩ := h2 i x y hx
    have hi0 : i - 0 = i := by omega
    rw [hi0] at g2 g3 g4 g6
    exact ⟨g2, by omega, g3, g4, g5, g6⟩
  · have hv : verify_results a b = Except.error VerifyError.size_mismatch := by
      rw [verify_results, if_pos hlen]
    refine ⟨?_, fun _ => hv, ?_⟩
    · rw [hv]
      constructor
      · intro hx
        exact absurd hx (by simp)
      · intro hx
        rw [hx] at hlen
        exact absurd rfl hlen
    · intro i x y hx
      rw [hv] at hx
      injection hx with h1
      exact absurd h1 (by simp)

/-- C5 witness: the harness accepts `[0, 1] = [0, 1]` and reports the first
mismatch of `[0, 1, 5] vs [0, 2, 5]` at index 1 with values 1 and 2. -/
theorem C5_verify_results_witness :
    verify_results [0, 1] [0, 1] = Except.ok () ∧
    verify_results [0, 1, 5] [0, 2, 5] =
      Except.error (VerifyError.mismatch 1 1 2) ∧
    verify_results [0] [0, 1] = Except.error VerifyError.size_mismatch :=
  ⟨(C5_verify_results [0, 1] [0, 1]).1.mpr rfl, rfl,
    (C5_verify_results [0] [0, 1]).2.1 (by decide)⟩

/-! ## Empty-heap behaviour -/

theorem radix_buckets_empty_of_flatten_nil {h : RadixHeap}
    (hf : h.buckets.flatten = []) : ∀ i, h.buckets.getD i [] = [] := by
  intro i
  by_cases hi : i < h.buckets.length
  · cases hx : h.buckets.getD i [] with
    | nil => rfl
    | cons e rest =>
      have : e ∈ h.buckets.flatten :=
        (mem_flatten_iff_getD _ _).mpr ⟨i, hi, by rw [hx]; exact List.mem_cons_self _ _⟩
      rw [hf] at this
      exact absurd this (List.not_mem_nil e)
  · exact List.getD_eq_default _ _ (by omega)

theorem relocate_none_of_empty {h : RadixHeap} (hw : RadixWF h)
    (hempty : h.sz = 0) : h.relocate = none := by
  have hf : h.buckets.flatten = [] := by
    have := hw.2.1
    rw [hempty] at this
    exact List.length_eq_zero.mp this.symm
  have hall := radix_buckets_empty_of_flatten_nil hf
  cases hs : RadixHeap.scan h.buckets 1 64 with
  | none =>
    rw [RadixHeap.relocate, hs]
  | some i =>
    obtain ⟨_, _, hne, _⟩ := scan_some 64 1 i hs
    exact absurd (hall i) hne

theorem pop_none_of_empty {h : RadixHeap} (hw : RadixWF h)
    (hempty : h.sz = 0) : h.pop = none := by
  have hf : h.buckets.flatten = [] := by
    have := hw.2.1
    rw [hempty] at this
    exact List.length_eq_zero.mp this.symm
  have hall := radix_buckets_empty_of_flatten_nil hf
  rw [RadixHeap.pop, if_pos (hall 0), relocate_none_of_empty hw hempty]

/-- C6: popping a well-formed empty radix heap (equivalently, one where
`relocate` finds no non-empty bucket beyond bucket 0) produces no value:
the `none` results model the thrown `std::logic_error("RadixHeap is
empty")`, an unrecoverable logic error. -/
theorem C6_pop_empty (h : RadixHeap) (hw : RadixWF h) (hempty : h.sz = 0) :
    h.pop = none ∧ h.relocate = none :=
  ⟨pop_none_of_empty hw hempty, relocate_none_of_empty hw hempty⟩

/-- C6 witness: popping the freshly constructed radix heap fails. -/
theorem C6_pop_empty_witness :
    RadixWF RadixHeap.init ∧ RadixHeap.init.sz = 0 ∧
    RadixHeap.init.pop = none ∧ RadixHeap.init.relocate = none :=
  ⟨radixWF_init, rfl, C6_pop_empty RadixHeap.init radixWF_init rfl⟩

/-- C9: on a well-formed heap with bucket 0 empty and at least one stored
entry, `relocate` succeeds: every entry of the lowest non-empty bucket
`i > 0` moves to a strictly smaller bucket, the new watermark is the
minimum key of that bucket, at least one minimum-key entry lands in bucket
0 (and bucket 0 holds only entries with key = the new watermark), the
stored entries and the size counter are preserved, and the subsequent
unguarded `buckets[0].back()` of `pop` acts on a non-empty bucket:
`pop` succeeds. -/
theorem C9_relocate_safe (h : RadixHeap) (hw : RadixWF h)
    (h0 : h.buckets.getD 0 [] = []) (hne : h.sz ≠ 0) :
    ∃ i h', RadixHeap.scan h.buckets 1 64 = some i ∧ h.relocate = some h' ∧
      1 ≤ i ∧ i < 65 ∧ h.buckets.getD i [] ≠ [] ∧
      (∀ j, 1 ≤ j → j < i → h.buckets.getD j [] = []) ∧
      (∀ p ∈ h.buckets.getD i [], bucket_index (p.1 ^^^ h'.last) < i) ∧
      h'.last ∈ (h.buckets.getD i []).map Prod.fst ∧
      (∀ p ∈ h.buckets.getD i [], h'.last ≤ p.1) ∧
      h'.buckets.getD 0 [] ≠ [] ∧
      (∀ e ∈ h'.buckets.getD 0 [], e.1 = h'.last) ∧
      h'.buckets.flatten.Perm h.buckets.flatten ∧ h'.sz = h.sz ∧
      h.pop ≠ none := by
  have hflne : h.buckets.flatten ≠ [] := by
    intro hx
    apply hne
    rw [hw.2.1, hx]
    rfl
  obtain ⟨i, h', hscan, hrel, hw', hperm, hsz, hi1, hi2, hib, hmin, hmem, hle,
    hdown, hb0⟩ := radix_relocate_spec hw h0 hflne
  have hb0keys : ∀ e ∈ h'.buckets.getD 0 [], e.1 = h'.last := by
    intro e he
    have hlen' : h'.buckets.length = 65 := hw'.1
    have := hw'.2.2.2.2 0 (by omega) e he
    have hx : e.1 ^^^ h'.last < M64 :=
      Nat.xor_lt_two_pow
        (hw'.2.2.2.1 e ((mem_flatten_iff_getD _ _).mpr ⟨0, by omega, he⟩))
        hw'.2.2.1
    exact Nat.xor_eq_zero.mp ((bucket_index_eq_zero_iff hx).mp this)
  have hpop : h.pop ≠ none := by
    obtain ⟨k, v, h2, hpop2, _⟩ := radix_pop_spec hw hflne
    rw [hpop2]
    simp
  exact ⟨i, h', hscan, hrel, hi1, hi2, hib, hmin, hdown, hmem, hle, hb0,
    hb0keys, hperm, hsz, hpop⟩

/-- C9 witness: relocating a heap holding one entry with key 5 in bucket 3. -/
theorem C9_relocate_safe_witness :
    RadixWF (RadixHeap.init.push 5 7) ∧
    (RadixHeap.init.push 5 7).buckets.getD 0 [] = [] ∧
    (RadixHeap.init.push 5 7).sz ≠ 0 ∧
    ∃ i h', RadixHeap.scan (RadixHeap.init.push 5 7).buckets 1 64 = some i ∧
      (RadixHeap.init.push 5 7).relocate = some h' ∧
      1 ≤ i ∧ i < 65 ∧ (RadixHeap.init.push 5 7).buckets.getD i [] ≠ [] ∧
      (∀ j, 1 ≤ j → j < i → (RadixHeap.init.push 5 7).buckets.getD j [] = []) ∧
      (∀ p ∈ (RadixHeap.init.push 5 7).buckets.getD i [],
        bucket_index (p.1 ^^^ h'.last) < i) ∧
      h'.last ∈ ((RadixHeap.init.push 5 7).buckets.getD i []).map Prod.fst ∧
      (∀ p ∈ (RadixHeap.init.push 5 7).buckets.getD i [], h'.last ≤ p.1) ∧
      h'.buckets.getD 0 [] ≠ [] ∧
      (∀ e ∈ h'.buckets.getD 0 [], e.1 = h'.last) ∧
      h'.buckets.flatten.Perm (RadixHeap.init.push 5 7).buckets.flatten ∧
      h'.sz = (RadixHeap.init.push 5 7).sz ∧
      (RadixHeap.init.push 5 7).pop ≠ none :=
  ⟨by decide, by decide, by decide,
    C9_relocate_safe (RadixHeap.init.push 5 7) (by decide) (by decide) (by decide)⟩

/-! ## Radix heap operation sequences -/

/-- A `RadixHeap` operation: a push with a 64-bit key, or a pop. -/
inductive RHOp where
  | push (k v : ℕ) : RHOp
  | pop : RHOp
deriving DecidableEq

/-- Execute one operation; `none` propagates the pop failure. -/
def RHexec (h : RadixHeap) : RHOp → Option RadixHeap
  | RHOp.push k v => some (h.push k v)
  | RHOp.pop => (h.pop).map Prod.snd

/-- Run a sequence of operations from a heap state. -/
def RHrun : RadixHeap → List RHOp → Option RadixHeap
  | h, [] => some h
  | h, op :: rest =>
    match RHexec h op with
    | none => none
    | some h' => RHrun h' rest

/-- The caller-side monotonicity precondition of the radix heap: along the
run, every pushed key is a 64-bit value that is `≥` the heap's `last` at
the time of the call. -/
def monotoneOpsB : RadixHeap → List RHOp → Bool
  | _, [] => true
  | h, RHOp.push k v :: rest =>
    decide (h.last ≤ k) && decide (k < M64) && monotoneOpsB (h.push k v) rest
  | h, RHOp.pop :: rest =>
    match h.pop with
    | none => true
    | some (_, h') => monotoneOpsB h' rest

theorem radix_pop_wf {h : RadixHeap} {p : (ℕ × ℕ) × RadixHeap} (hw : RadixWF h)
    (hpop : h.pop = some p) : RadixWF p.2 := by
  by_cases hne : h.buckets.flatten = []
  · have : h.pop = none := pop_none_of_empty hw (by rw [hw.2.1, hne]; rfl)
    rw [this] at hpop
    exact absurd hpop (by simp)
  · obtain ⟨k, v, h', hpop', hw', _⟩ := radix_pop_spec hw hne
    rw [hpop'] at hpop
    injection hpop with h1
    rw [← h1]
    exact hw'

theorem RHrun_wf : ∀ (ops : List RHOp) (h h' : RadixHeap), RadixWF h →
    monotoneOpsB h ops = true → RHrun h ops = some h' → RadixWF h' := by
  intro ops
  induction ops with
  | nil =>
    intro h h' hw _ hrun
    rw [RHrun] at hrun
    injection hrun with h1
    rw [← h1]
    exact hw
  | cons op rest ih =>
    intro h h' hw hmono hrun
    cases op with
    | push k v =>
      rw [monotoneOpsB] at hmono
      simp only [Bool.and_eq_true, decide_eq_true_eq] at hmono
      obtain ⟨⟨hlast, hk⟩, hmono'⟩ := hmono
      rw [RHrun] at hrun
      simp only [RHexec] at hrun
      exact ih _ h' (radixWF_push hw hk).1 hmono' hrun
    | pop =>
      rw [monotoneOpsB] at hmono
      rw [RHrun] at hrun
      simp only [RHexec] at hrun
      cases hpop : h.pop with
      | none =>
        rw [hpop] at hrun
        exact absurd hrun (by simp)
      | some p =>
        rw [hpop] at hrun hmono
        simp only [Option.map_some'] at hrun
        exact ih _ h' (radix_pop_wf hw hpop) hmono hrun

/-- C2: running any operation sequence that respects the monotone-push
precondition from a fresh heap reaches only states satisfying the bucket
invariant (every stored entry with key `k` lies in bucket
`bucket_index (k XOR last)`); since this holds for every such sequence, it
holds after every push and pop, and it is likewise preserved by any
`relocate` step performed on a reachable state with empty bucket 0. -/
theorem C2_bucket_invariant (ops : List RHOp) (h' : RadixHeap)
    (hmono : monotoneOpsB RadixHeap.init ops = true)
    (hrun : RHrun RadixHeap.init ops = some h') :
    BucketInv h' ∧
    ∀ h'', h'.buckets.getD 0 [] = [] → h'.relocate = some h'' →
      BucketInv h'' := by
  have hw' : RadixWF h' := RHrun_wf ops RadixHeap.init h' radixWF_init hmono hrun
  refine ⟨hw'.2.2.2.2, ?_⟩
  intro h'' h0 hrel
  by_cases hne : h'.buckets.flatten = []
  · have : h'.relocate = none :=
      relocate_none_of_empty hw' (by rw [hw'.2.1, hne]; rfl)
    rw [this] at hrel
    exact absurd hrel (by simp)
  · obtain ⟨i, hmid, _, hrel', hwmid, _⟩ := radix_relocate_spec hw' h0 hne
    rw [hrel'] at hrel
    injection hrel with h1
    rw [← h1]
    exact hwmid.2.2.2.2

/-- C2 witness: the invariant after the monotone sequence
`push 5, push 9, pop` from a fresh heap. -/
theorem C2_bucket_invariant_witness :
    monotoneOpsB RadixHeap.init [RHOp.push 5 1, RHOp.push 9 2, RHOp.pop] = true ∧
    ∃ h', RHrun RadixHeap.init [RHOp.push 5 1, RHOp.push 9 2, RHOp.pop] = some h' ∧
      BucketInv h' := by
  refine ⟨by decide, ?_⟩
  cases hx : RHrun RadixHeap.init [RHOp.push 5 1, RHOp.push 9 2, RHOp.pop] with
  | none => exact absurd hx (by decide)
  | some h' =>
    exact ⟨h', rfl, (C2_bucket_invariant _ h' (by decide) hx).1⟩

/-! ## The edge-list reader and the empty-graph check of `main` -/

/-- A line of the input file, as its character sequence (Lean `String`
primitives do not reduce in the kernel, so lines are modelled by their
characters). -/
abbrev Line := List Char

/-- `line.empty() || line[0] == '#'`. -/
def skipLine : Line → Bool
  | [] => true
  | c :: _ => c == '#'

/-- Whitespace tokenization, modelling the `istringstream` extraction
`iss >> from >> to >> w_input` over a space- or tab-separated line. -/
def splitWSAux : Line → List Char → List (List Char)
  | [], acc => if acc = [] then [] else [acc.reverse]
  | c :: rest, acc =>
    if c = ' ' ∨ c = '\t' then
      if acc = [] then splitWSAux rest [] else acc.reverse :: splitWSAux rest []
    else splitWSAux rest (c :: acc)

/-- The whitespace-separated tokens of a line. -/
def splitWS (l : Line) : List (List Char) := splitWSAux l []

/-- Decimal digit test. -/
def isDigit (c : Char) : Bool := '0' ≤ c && c ≤ '9'

/-- Decimal digit value. -/
def digitVal (c : Char) : ℕ := c.toNat - '0'.toNat

/-- Parse an unsigned decimal numeral. -/
def parseNat? (cs : List Char) : Option ℕ :=
  if cs = [] then none
  else if cs.all isDigit then
    some (cs.foldl (fun a c => a * 10 + digitVal c) 0)
  else none

/-- Parse a (possibly signed) decimal integer token, modelling
`istream >> (integer)`. -/
def parseInt? : List Char → Option ℤ
  | '-' :: rest => (parseNat? rest).map (fun n => -(n : ℤ))
  | '+' :: rest => (parseNat? rest).map (fun n => (n : ℤ))
  | cs => (parseNat? cs).map (fun n => (n : ℤ))

/-- Parse one edge line into `(from, to, w_input)`. -/
def parseLine (l : Line) : Except String (ℤ × ℤ × ℤ) :=
  match splitWS l with
  | f :: t :: w :: _ =>
    match parseInt? f, parseInt? t, parseInt? w with
    | some a, some b, some c => Except.ok (a, b, c)
    | _, _, _ => Except.error ("Invalid line in input file")
  | _ => Except.error ("Invalid line in input file")

/-- `struct GraphLoadResult { Graph graph; int node_count = 0; }`. -/
structure GraphLoadResult where
  graph : Graph
  node_count : ℕ
deriving DecidableEq

/-- One iteration of the read loop: skip blank/`#` lines, parse and check
an edge line, extend the edge list and the running maximum node id. -/
def readStep (st : List (ℕ × ℕ × ℕ) × ℤ) (line : Line) :
    Except String (List (ℕ × ℕ × ℕ) × ℤ) :=
  if skipLine line then Except.ok st
  else
    match parseLine line with
    | Except.error e => Except.error e
    | Except.ok (a, b, c) =>
      if a < 0 ∨ b < 0 then Except.error ("Node ids must be non-negative")
      else if c < 0 then Except.error ("Edge weights must be non-negative")
      else Except.ok (st.1 ++ [(a.toNat, b.toNat, c.toNat)], max st.2 (max a b))

/-- The read loop over all input lines. -/
def readLines (st : List (ℕ × ℕ × ℕ) × ℤ) : List Line →
    Except String (List (ℕ × ℕ × ℕ) × ℤ)
  | [] => Except.ok st
  | l :: ls =>
    match readStep st l with
    | Except.error e => Except.error e
    | Except.ok st' => readLines st' ls

/-- Distribute the collected `(from, to, w)` triples into adjacency lists. -/
def buildGraph (n : ℕ) (edges : List (ℕ × ℕ × ℕ)) : Graph :=
  edges.foldl (fun g e => g.set e.1 (g.getD e.1 [] ++ [⟨e.2.1, e.2.2⟩]))
    (List.replicate n [])

/-- `read_graph_from_file` on the already-split lines of the input. -/
def read_graph_from_file (lines : List Line) : Except String GraphLoadResult :=
  match readLines ([], -1) lines with
  | Except.error e => Except.error e
  | Except.ok (edges, max_node) =>
    if max_node < 0 then Except.ok ⟨[], 0⟩
    else Except.ok ⟨buildGraph (max_node + 1).toNat edges, (max_node + 1).toNat⟩

/-- The load-and-check prefix of `main`: reject an empty graph before any
algorithm runs. -/
def load_graph_checked (lines : List Line) : Except String GraphLoadResult :=
  match read_graph_from_file lines with
  | Except.error e => Except.error e
  | Except.ok r =>
    if r.graph.isEmpty then
      Except.error ("Input graph is empty; provide at least one edge.")
    else Except.ok r

theorem flatten_replicate_nil {α : Type} :
    ∀ k, (List.replicate k ([] : List α)).flatten = [] := by
  intro k
  induction k with
  | zero => rfl
  | succ k ih => simp [List.replicate_succ, ih]

theorem readLines_skip_all :
    ∀ (lines : List Line) (st : List (ℕ × ℕ × ℕ) × ℤ),
      (∀ l ∈ lines, skipLine l = true) → readLines st lines = Except.ok st := by
  intro lines
  induction lines with
  | nil => intro st _; rfl
  | cons l ls ih =>
    intro st hskip
    rw [readLines, readStep, if_pos (hskip l (List.mem_cons_self l ls))]
    exact ih st (fun l' hl' => hskip l' (List.mem_cons_of_mem l hl'))

/-- The read-loop invariant: the maximum is negative iff no edge was
collected, and every collected source id is bounded by the maximum. -/
def ReadInv (st : List (ℕ × ℕ × ℕ) × ℤ) : Prop :=
  (st.2 < 0 ↔ st.1 = []) ∧ ∀ p ∈ st.1, (p.1 : ℤ) ≤ st.2

theorem readLines_inv :
    ∀ (lines : List Line) (st st' : List (ℕ × ℕ × ℕ) × ℤ),
      readLines st lines = Except.ok st' → ReadInv st → ReadInv st' := by
  intro lines
  induction lines with
  | nil =>
    intro st st' hrun hinv
    rw [readLines] at hrun
    injection hrun with h1
    rw [← h1]
    exact hinv
  | cons l ls ih =>
    intro st st' hrun hinv
    rw [readLines] at hrun
    by_cases hskip : skipLine l = true
    · rw [readStep, if_pos hskip] at hrun
      exact ih st st' hrun hinv
    · rw [readStep, if_neg hskip] at hrun
      cases hp : parseLine l with
      | error e =>
        rw [hp] at hrun
        exact absurd hrun (by simp)
      | ok abc =>
        obtain ⟨a, b, c⟩ := abc
        rw [hp] at hrun
        simp only [] at hrun
        by_cases hab : a < 0 ∨ b < 0
        · rw [if_pos hab] at hrun
          exact absurd hrun (by simp)
        · rw [if_neg hab] at hrun
          by_cases hc : c < 0
          · rw [if_pos hc] at hrun
            exact absurd hrun (by simp)
          · rw [if_neg hc] at hrun
            apply ih _ st' hrun
            push_neg at hab
            constructor
            · constructor
              · intro hx
                exfalso
                have : (0 : ℤ) ≤ max st.2 (max a b) := by
                  have := le_max_left a b
                  have := le_max_right st.2 (max a b)
                  omega
                omega
              · intro hx
                exact absurd hx (by simp)
            · intro p hp2
              rcases List.mem_append.mp hp2 with h1 | h1
              · have := hinv.2 p h1
                have := le_max_left st.2 (max a b)
                omega
              · simp only [List.mem_singleton] at h1
                rw [h1]
                have h2 : (a.toNat : ℤ) = a := Int.toNat_of_nonneg hab.1
                have := le_max_right st.2 (max a b)
                have := le_max_left a b
                simp only [h2]
                omega

theorem buildGraph_length (n : ℕ) :
    ∀ (edges : List (ℕ × ℕ × ℕ)) (g : Graph), g.length = n →
      (edges.foldl (fun g e => g.set e.1 (g.getD e.1 [] ++ [⟨e.2.1, e.2.2⟩])) g).length
        = n := by
  intro edges
  induction edges with
  | nil => intro g hg; exact hg
  | cons e rest ih =>
    intro g hg
    rw [List.foldl_cons]
    exact ih _ (by rw [List.length_set]; exact hg)

theorem buildGraph_flatten_length :
    ∀ (edges : List (ℕ × ℕ × ℕ)) (g : Graph), (∀ p ∈ edges, p.1 < g.length) →
      (edges.foldl (fun g e => g.set e.1 (g.getD e.1 [] ++ [⟨e.2.1, e.2.2⟩])) g).flatten.length
        = g.flatten.length + edges.length := by
  intro edges
  induction edges with
  | nil => intro g _; rfl
  | cons e rest ih =>
    intro g hrange
    rw [List.foldl_cons]
    have h1 : e.1 < g.length := hrange e (List.mem_cons_self e rest)
    have hperm := flatten_set_append_perm g e.1 (⟨e.2.1, e.2.2⟩ : Edge) h1
    have h2 := ih (g.set e.1 (g.getD e.1 [] ++ [⟨e.2.1, e.2.2⟩])) (by
      intro p hp
      rw [List.length_set]
      exact hrange p (List.mem_cons_of_mem e hp))
    rw [h2, hperm.length_eq]
    simp only [List.length_cons]
    omega

/-- C10: if the input contains no edge lines (every line is blank or a
`#` comment), the program rejects it before running either algorithm; and
every input that passes the check yields a graph with at least one edge
and at least one node, so a single-node edgeless graph cannot be supplied. -/
theorem C10_empty_input_rejected :
    (∀ lines : List Line, (∀ l ∈ lines, skipLine l = true) →
      read_graph_from_file lines = Except.ok ⟨[], 0⟩ ∧
      load_graph_checked lines =
        Except.error ("Input graph is empty; provide at least one edge.")) ∧
    (∀ (lines : List Line) (r : GraphLoadResult),
      load_graph_checked lines = Except.ok r →
      1 ≤ r.graph.flatten.length ∧ 1 ≤ r.node_count ∧
      ¬(r.node_count = 1 ∧ r.graph.flatten.length = 0)) := by
  constructor
  · intro lines hskip
    have hread : read_graph_from_file lines = Except.ok ⟨[], 0⟩ := by
      rw [read_graph_from_file, readLines_skip_all lines ([], -1) hskip]
      rfl
    refine ⟨hread, ?_⟩
    rw [load_graph_checked, hread]
    rfl
  · intro lines r hload
    rw [load_graph_checked] at hload
    cases hread : read_graph_from_file lines with
    | error e =>
      rw [hread] at hload
      exact absurd hload (by simp)
    | ok r0 =>
      rw [hread] at hload
      simp only [] at hload
      by_cases hempty : r0.graph.isEmpty = true
      · rw [if_pos hempty] at hload
        exact absurd hload (by simp)
      · rw [if_neg hempty] at hload
        injection hload with h1
        subst h1
        rw [read_graph_from_file] at hread
        cases hrl : readLines ([], -1) lines with
        | error e =>
          rw [hrl] at hread
          exact absurd hread (by simp)
        | ok st =>
          obtain ⟨edges, max_node⟩ := st
          rw [hrl] at hread
          simp only [] at hread
          by_cases hmax : max_node < 0
          · rw [if_pos hmax] at hread
            injection hread with h2
            rw [← h2] at hempty
            exact absurd rfl hempty
          · rw [if_neg hmax] at hread
            injection hread with h2
            have hinv := readLines_inv lines ([], -1) (edges, max_node) hrl
              ⟨by constructor <;> intro <;> first | rfl | omega, by
                intro p hp
                simp at hp⟩
            have hne : edges ≠ [] := by
              intro hx
              exact hmax (hinv.1.mpr hx)
            have hrange : ∀ p ∈ edges, p.1 < (max_node + 1).toNat := by
              intro p hp
              have := hinv.2 p hp
              omega
            have hlen0 : (List.replicate (max_node + 1).toNat
                ([] : List Edge)).length = (max_node + 1).toNat := by
              simp
            have hflat : r0.graph.flatten.length = edges.length := by
              rw [← h2]
              simp only [buildGraph]
              rw [buildGraph_flatten_length edges _ (by
                intro p hp
                rw [hlen0]
                exact hrange p hp)]
              have : (List.replicate (max_node + 1).toNat
                  ([] : List Edge)).flatten.length = 0 := by
                rw [flatten_replicate_nil]
                rfl
              omega
            have hel : 1 ≤ edges.length := by
              cases edges with
              | nil => exact absurd rfl hne
              | cons e rest => simp
            have hnc : r0.node_count = (max_node + 1).toNat := by
              rw [← h2]
            refine ⟨by omega, by rw [hnc]; omega, ?_⟩
            intro ⟨hx1, hx2⟩
            omega

/-- C10 witness: a comment-and-blank input is rejected with the
empty-graph error, and the single edge line `0 1 5` loads a 2-node graph
with one edge. -/
theorem C10_empty_input_rejected_witness :
    ((∀ l ∈ ([['#', 'c'], []] : List Line), skipLine l = true) ∧
      read_graph_from_file [['#', 'c'], []] = Except.ok ⟨[], 0⟩ ∧
      load_graph_checked [['#', 'c'], []] =
        Except.error ("Input graph is empty; provide at least one edge.")) ∧
    (load_graph_checked [['0', ' ', '1', ' ', '5']] =
        Except.ok ⟨[[⟨1, 5⟩], []], 2⟩ ∧
      1 ≤ (GraphLoadResult.mk [[⟨1, 5⟩], []] 2).graph.flatten.length ∧
      1 ≤ (GraphLoadResult.mk [[⟨1, 5⟩], []] 2).node_count ∧
      ¬((GraphLoadResult.mk [[⟨1, 5⟩], []] 2).node_count = 1 ∧
        (GraphLoadResult.mk [[⟨1, 5⟩], []] 2).graph.flatten.length = 0)) :=
  ⟨⟨by decide, C10_empty_input_rejected.1 [['#', 'c'], []] (by decide)⟩,
    ⟨rfl, C10_empty_input_rejected.2 [['0', ' ', '1', ' ', '5']]
      (GraphLoadResult.mk [[⟨1, 5⟩], []] 2) rfl⟩⟩
